import Mathlib

/-!
# termsnake: the game core of `main.go`

A shallow embedding of the snake, the food placement and the game state
machine of `main.go`, followed by the properties proved about them.

Conventions of the embedding.

* Go's `int` (64-bit two's complement) is `Int`; every unguarded `+`/`-` of the
  source is followed by `wrap64`.  `direction` and `gameState` are `int8`; the
  one addition on directions is followed by `wrap8`.
* `[]*node` is `List node`, tail first and head last.  The pointers held by a
  snake are pairwise distinct (each comes from its own `&node{}` in `newSnake`
  or `move`, and `move` only rotates the slice), so a list of values stands for
  the slice; the single aliasing case of `move` (a one-segment snake, whose
  recycled tail is its head) is treated where it occurs.
* A run-time panic (index out of range, `rand.Intn` with a non-positive bound)
  is the outcome `panic`.  The random draws of `freeSpot` are an explicit list,
  one pair per attempt; when the list is used up before an attempt succeeds the
  outcome is `pending` (the call has not returned yet).
* Terminal output (`draw`, `puts`, `cputs`), the ticker and the event channel
  are not part of the state; `loopStep` receives what the `select` received.
-/

namespace Termsnake

/-! ## Machine integers and outcomes -/

/-- Two's complement wrap-around of a 64-bit `int`. -/
def wrap64 (i : Int) : Int :=
  (i + 9223372036854775808) % 18446744073709551616 - 9223372036854775808

/-- Two's complement wrap-around of an `int8`. -/
def wrap8 (i : Int) : Int := (i + 128) % 256 - 128

/-- The values an `int8` can hold. -/
def isInt8 (i : Int) : Prop := -128 ≤ i ∧ i ≤ 127

instance (i : Int) : Decidable (isInt8 i) := by unfold isInt8; infer_instance

/-- How a call ends: it returns a value, it panics, or it is still running when
the supplied random draws are used up. -/
inductive Outcome (α : Type) where
  | ok (a : α)
  | panic
  | pending
  deriving DecidableEq, Repr

/-- Sequencing of calls. -/
def Outcome.bind {α β : Type} (o : Outcome α) (f : α → Outcome β) : Outcome β :=
  match o with
  | .ok a => f a
  | .panic => .panic
  | .pending => .pending

/-! ## Constants (main.go 16-27) -/

def up : Int := -1
def down : Int := 1
def right : Int := 2
def left : Int := -2

def playing : Int := 1
def gameOver : Int := 2
def exit : Int := 3

/-! ## Data (main.go 29-39, 84-98) -/

structure node where
  x : Int
  y : Int
  d : Int
  deriving DecidableEq, Repr

structure snake where
  nodes : List node
  d : Int
  potential : Int
  deriving DecidableEq, Repr

structure food where
  x : Int
  y : Int
  deriving DecidableEq, Repr

structure game where
  snake : snake
  state : Int
  food : food
  score : Int
  width : Int
  height : Int
  deriving DecidableEq, Repr

/-! ## Snake (main.go 41-82) -/

/-- `s.nodes[len(s.nodes)-1]`; indexing an empty slice panics. -/
def snake.head (s : snake) : Outcome node :=
  match s.nodes.getLast? with
  | some h => .ok h
  | none => .panic

/-- `s.nodes[0 : len(s.nodes)-1]`; slicing an empty slice to `0:-1` panics. -/
def snake.tail (s : snake) : Outcome (List node) :=
  match s.nodes.getLast? with
  | none => .panic
  | some _ => .ok s.nodes.dropLast

/-- The `switch newHead.d` of `move`: one step from `(x, y)`; a value that is
none of the four constants matches no case. -/
def stepFrom (x y d : Int) : node :=
  if d = up then { x := x, y := wrap64 (y - 1), d := d }
  else if d = down then { x := x, y := wrap64 (y + 1), d := d }
  else if d = left then { x := wrap64 (x - 1), y := y, d := d }
  else if d = right then { x := wrap64 (x + 1), y := y, d := d }
  else { x := x, y := y, d := d }

/-- `move`.  `head.d = s.d` rewrites the last node in place; then the new head
is either a fresh node appended to the slice or the first node moved to the
end.  In both branches its fields are overwritten with `s.d` and the head's
coordinates and then stepped.  When the snake has one segment the recycled
node is the head itself: `newHead.x = head.x` is a self-assignment and the
step is applied to the head's own coordinates, which is what the formula below
gives for `nodes.drop 1 = []`.  `s.potential--` is guarded by
`s.potential > 0`, so it cannot wrap. -/
def snake.move (s : snake) : Outcome snake :=
  match s.nodes.getLast? with
  | none => .panic
  | some head =>
    let nodes := s.nodes.dropLast ++ [{ head with d := s.d }]
    let newHead := stepFrom head.x head.y s.d
    if s.potential > 0 then
      .ok { s with potential := s.potential - 1, nodes := nodes ++ [newHead] }
    else
      .ok { s with nodes := nodes.drop 1 ++ [newHead] }

/-- `redirect`: `(s.head().d + d) != 0` in `int8` arithmetic. -/
def snake.redirect (s : snake) (d : Int) : Outcome snake :=
  (s.head).bind fun h =>
    if wrap8 (h.d + d) ≠ 0 then .ok { s with d := d } else .ok s

/-! ## Food placement (main.go 268-278) -/

/-- `rand.Intn` of `math/rand`: panics when `n <= 0`, otherwise returns a value
of `[0, n)`; `raw` is the generator's raw draw, so every value of `[0, n)` is
the result for some `raw`. -/
def Intn (n : Int) (raw : Nat) : Option Int :=
  if n ≤ 0 then none else some ((raw : Int) % n)

/-- `freeSpot`: each call seeds its own generator and draws `x` then `y`; a draw
that hits a node makes the function call itself again.  One pair of the list
is one call's two draws.  The `+ 1` cannot wrap, a draw being below its
bound. -/
def freeSpot (width height : Int) (nodes : List node) :
    List (Nat × Nat) → Outcome (Int × Int)
  | [] =>
    if wrap64 (width - 2) ≤ 0 ∨ wrap64 (height - 2) ≤ 0 then .panic else .pending
  | (rx, ry) :: rest =>
    match Intn (wrap64 (width - 2)) rx with
    | none => .panic
    | some ix =>
      match Intn (wrap64 (height - 2)) ry with
      | none => .panic
      | some iy =>
        let x := ix + 1
        let y := iy + 1
        if nodes.any (fun n => decide (n.x = x ∧ n.y = y)) then
          freeSpot width height nodes rest
        else .ok (x, y)

/-! ## Game (main.go 100-105, 139-206) -/

/-- The `for _, n := range g.snake.tail()` loop of `consolidate`, as a fold
over the state. -/
def collide (head : node) (tail : List node) (state : Int) : Int :=
  tail.foldl (fun st n => if n.x = head.x ∧ n.y = head.y then gameOver else st) state

/-- `consolidate`. -/
def game.consolidate (g : game) (draws : List (Nat × Nat)) : Outcome game :=
  (g.snake.head).bind fun head =>
  (g.snake.tail).bind fun tail =>
    let st1 := collide head tail g.state
    let st2 :=
      if head.x = 0 ∨ head.x = wrap64 (g.width - 1) ∨ head.y = 0 ∨
          head.y = wrap64 (g.height - 1) then gameOver else st1
    if head.x = g.food.x ∧ head.y = g.food.y then
      (freeSpot g.width g.height g.snake.nodes draws).bind fun p =>
        .ok { g with
          state := st2
          snake := { g.snake with potential := 10 }
          score := wrap64 (g.score + 1)
          food := { x := p.1, y := p.2 } }
    else
      .ok { g with state := st2 }

/-- `tick`. -/
def game.tick (g : game) (draws : List (Nat × Nat)) : Outcome game :=
  if g.state = playing then
    (g.snake.move).bind fun s => game.consolidate { g with snake := s } draws
  else .ok g

/-- `newSnake`; `make` with a negative length panics. -/
def newSnake (size d : Int) : Outcome snake :=
  if size < 0 then .panic
  else .ok {
    nodes := (List.range size.toNat).map fun i => { x := wrap64 (5 + i), y := 5, d := right }
    d := d
    potential := 5 }

/-- The keys of termbox that `loop` distinguishes; any other key is `other`. -/
inductive Key where
  | KeyCtrlC | KeyArrowUp | KeyArrowDown | KeyArrowRight | KeyArrowLeft
  | KeyEsc | KeySpace | other
  deriving DecidableEq, Repr

/-- What one `select` of `loop` receives: a tick of the ticker (with the draws
its `freeSpot` call will make), a key event, or nothing (the `default`
branch). -/
inductive Input where
  | ticker (draws : List (Nat × Nat))
  | event (k : Key)
  | nothing
  deriving DecidableEq, Repr

/-- One iteration of the `for` of `loop`; `none` is `return`.  In state
`gameOver` the `select` has no `default` and no ticker case, so it waits for a
key: an iteration that is given no key leaves the game as it is. -/
def game.loopStep (g : game) (i : Input) : Outcome (Option game) :=
  if g.state = playing then
    match i with
    | .ticker draws => (g.tick draws).bind fun g1 => .ok (some g1)
    | .event .KeyCtrlC => .ok (some { g with state := exit })
    | .event .KeyArrowUp => (g.snake.redirect up).bind fun s => .ok (some { g with snake := s })
    | .event .KeyArrowDown => (g.snake.redirect down).bind fun s => .ok (some { g with snake := s })
    | .event .KeyArrowRight => (g.snake.redirect right).bind fun s => .ok (some { g with snake := s })
    | .event .KeyArrowLeft => (g.snake.redirect left).bind fun s => .ok (some { g with snake := s })
    | _ => .ok (some g)
  else if g.state = gameOver then
    match i with
    | .event .KeyEsc => .ok none
    | .event .KeyCtrlC => .ok none
    | .event .KeySpace =>
      (newSnake 1 right).bind fun s => .ok (some { g with snake := s, score := 0, state := playing })
    | _ => .ok (some g)
  else if g.state = exit then .ok none
  else .ok (some g)

/-- `newGame`; `w` and `h` are what `termbox.Size()` returned, and `w / 2`
truncates.  The ticker and the event channel are left out. -/
def newGame (w h : Int) (draws : List (Nat × Nat)) : Outcome game :=
  (newSnake 1 right).bind fun s =>
  (freeSpot (Int.tdiv w 2) h s.nodes draws).bind fun p =>
    .ok { width := Int.tdiv w 2, height := h, snake := s, state := playing,
          food := { x := p.1, y := p.2 }, score := 0 }

/-! ## Runs -/

/-- A call made on the game from outside: a redirect of the snake or a tick
(with the draws of its `freeSpot` call). -/
inductive Action where
  | redirect (d : Int)
  | tick (draws : List (Nat × Nat))
  deriving DecidableEq, Repr

/-- One call. -/
def game.act (g : game) : Action → Outcome game
  | .redirect d => (g.snake.redirect d).bind fun s => .ok { g with snake := s }
  | .tick draws => g.tick draws

/-- A sequence of calls, in order. -/
def game.run (g : game) : List Action → Outcome game
  | [] => .ok g
  | a :: rest => (g.act a).bind fun g1 => g1.run rest

/-- Successive ticks, one list of draws each. -/
def game.ticks (g : game) : List (List (Nat × Nat)) → Outcome game
  | [] => .ok g
  | draws :: rest => (g.tick draws).bind fun g1 => g1.ticks rest

/-- What happens to the game in one step of a run: a call made on it, or one
iteration of `loop` with what its `select` received. -/
inductive Op where
  | call (a : Action)
  | loop (i : Input)
  deriving DecidableEq, Repr

/-- One step of a run; when `loop` returns, the game stays as it is. -/
def game.op (g : game) : Op → Outcome game
  | .call a => g.act a
  | .loop i => (g.loopStep i).bind fun r =>
    match r with
    | some g1 => .ok g1
    | none => .ok g

/-- A run: steps in order. -/
def game.ops (g : game) : List Op → Outcome game
  | [] => .ok g
  | o :: rest => (g.op o).bind fun g1 => g1.ops rest

/-- A call made on the snake: `redirect(d)` or `move()`. -/
inductive SnakeOp where
  | redirect (d : Int)
  | move
  deriving DecidableEq, Repr

/-- One call on the snake. -/
def snake.op (s : snake) : SnakeOp → Outcome snake
  | .redirect d => s.redirect d
  | .move => s.move

/-- A sequence of calls on the snake, in order. -/
def snake.ops (s : snake) : List SnakeOp → Outcome snake
  | [] => .ok s
  | o :: rest => (s.op o).bind fun s1 => s1.ops rest

/-! ## Vocabulary of the properties -/

/-- The values a 64-bit `int` can hold. -/
def isInt64 (i : Int) : Prop := -9223372036854775808 ≤ i ∧ i ≤ 9223372036854775807

instance (i : Int) : Decidable (isInt64 i) := by unfold isInt64; infer_instance

/-- The grid cell of a segment. -/
def coord (n : node) : Int × Int := (n.x, n.y)

/-- No two segments of the snake are on the same cell. -/
def distinctCoords (s : snake) : Prop := (s.nodes.map coord).Nodup

instance (s : snake) : Decidable (distinctCoords s) := by unfold distinctCoords; infer_instance

/-- Opposite directions: up and down, left and right. -/
def opposite (a b : Int) : Prop :=
  (a = up ∧ b = down) ∨ (a = down ∧ b = up) ∨ (a = left ∧ b = right) ∨ (a = right ∧ b = left)

instance (a b : Int) : Decidable (opposite a b) := by unfold opposite; infer_instance

/-- The four direction constants. -/
def isDirection (d : Int) : Prop := d = up ∨ d = down ∨ d = left ∨ d = right

instance (d : Int) : Decidable (isDirection d) := by unfold isDirection; infer_instance

/-- The head is on the cell of a segment of the body. -/
def hitsBody (head : node) (body : List node) : Prop :=
  ∃ n ∈ body, n.x = head.x ∧ n.y = head.y

instance (head : node) (body : List node) : Decidable (hitsBody head body) := by
  unfold hitsBody; infer_instance

/-- The head is on the border ring of the board: `x == 0`, `x == width-1`,
`y == 0` or `y == height-1`. -/
def onBorder (g : game) (head : node) : Prop :=
  head.x = 0 ∨ head.x = wrap64 (g.width - 1) ∨ head.y = 0 ∨ head.y = wrap64 (g.height - 1)

instance (g : game) (head : node) : Decidable (onBorder g head) := by
  unfold onBorder; infer_instance

/-- The head is on the food. -/
def onFood (g : game) (head : node) : Prop :=
  head.x = g.food.x ∧ head.y = g.food.y

instance (g : game) (head : node) : Decidable (onFood g head) := by
  unfold onFood; infer_instance

/-- The intended direction is not the opposite of the direction the head
records. -/
def noReversal (s : snake) : Prop :=
  match s.nodes.getLast? with
  | some h => ¬ opposite s.d h.d
  | none => True

instance (s : snake) : Decidable (noReversal s) := by
  unfold noReversal; split <;> infer_instance

/-- The segment is strictly inside the border ring of the board. -/
def insideRing (g : game) (n : node) : Prop :=
  0 < n.x ∧ n.x < g.width - 1 ∧ 0 < n.y ∧ n.y < g.height - 1

instance (g : game) (n : node) : Decidable (insideRing g n) := by
  unfold insideRing; infer_instance

/-- The grid distance `|dx| + |dy|` of two segments, `dx` and `dy` being the
differences of their coordinates in the arithmetic of `int`. -/
def gridDist (a b : node) : Nat :=
  (wrap64 (b.x - a.x)).natAbs + (wrap64 (b.y - a.y)).natAbs

/-- Each pair of consecutive segments is one grid step apart. -/
def contiguous (l : List node) : Prop :=
  List.Chain' (fun a b => gridDist a b = 1) l

instance (l : List node) : Decidable (contiguous l) := by
  unfold contiguous; infer_instance

/-- Every cell of the interior `1 <= x <= width-2`, `1 <= y <= height-2` is the
cell of some node of the list. -/
def coversInterior (width height : Int) (nodes : List node) : Prop :=
  ∀ x y : Int, 1 ≤ x → x ≤ width - 2 → 1 ≤ y → y ≤ height - 2 →
    ∃ n ∈ nodes, n.x = x ∧ n.y = y

/-- One step from a cell in a direction, as the specification words it:
up is `(x, y-1)`, down `(x, y+1)`, left `(x-1, y)`, right `(x+1, y)`, in the
arithmetic of `int`. -/
def specStep (c : Int × Int) (d : Int) : Int × Int :=
  if d = up then (c.1, wrap64 (c.2 - 1))
  else if d = down then (c.1, wrap64 (c.2 + 1))
  else if d = left then (wrap64 (c.1 - 1), c.2)
  else if d = right then (wrap64 (c.1 + 1), c.2)
  else c

/-- The straightforward move of the specification on the tail-to-head sequence
of cells: append the new head when growth is pending, otherwise drop the first
cell and append the new head. -/
def specMove (cells : List (Int × Int)) (head : Int × Int) (d potential : Int) :
    List (Int × Int) :=
  if potential > 0 then cells ++ [specStep head d]
  else cells.drop 1 ++ [specStep head d]

/-! ## Auxiliary facts -/

theorem wrap64_of_isInt64 {i : Int} (h : isInt64 i) : wrap64 i = i := by
  unfold isInt64 at h
  unfold wrap64
  omega

theorem isInt64_wrap64 (i : Int) : isInt64 (wrap64 i) := by
  unfold isInt64 wrap64
  omega

theorem exists_concat_of_ne_nil {l : List node} (h : l ≠ []) :
    ∃ ini last, l = ini ++ [last] := by
  rcases List.eq_nil_or_concat l with h0 | ⟨ini, last, h1⟩
  · exact absurd h0 h
  · exact ⟨ini, last, by simpa using h1⟩

theorem getLast?_of_concat {l ini : List node} {last : node} (h : l = ini ++ [last]) :
    l.getLast? = some last := by
  subst h
  exact List.getLast?_concat ini

/-- The two branches of `move` on a slice `ini ++ [h]`. -/
theorem move_concat (s : snake) (ini : List node) (h : node) (hs : s.nodes = ini ++ [h]) :
    s.move = .ok (if s.potential > 0 then
        { s with
          potential := s.potential - 1
          nodes := (ini ++ [{ h with d := s.d }]) ++ [stepFrom h.x h.y s.d] }
      else
        { s with nodes := (ini ++ [{ h with d := s.d }]).drop 1 ++ [stepFrom h.x h.y s.d] }) := by
  unfold snake.move
  rw [hs, List.getLast?_concat]
  simp only [List.dropLast_concat]
  split <;> rfl

theorem stepFrom_d (x y d : Int) : (stepFrom x y d).d = d := by
  unfold stepFrom
  split_ifs <;> rfl

theorem Intn_bounds {n i : Int} {raw : Nat} (h : Intn n raw = some i) :
    0 < n ∧ 0 ≤ i ∧ i < n := by
  unfold Intn at h
  split at h
  · cases h
  · have hn : 0 < n := by omega
    cases h
    exact ⟨hn, Int.emod_nonneg _ (by omega), Int.emod_lt_of_pos _ hn⟩

/-- Whatever `freeSpot` returns comes from draws below the two bounds and is on
no node of the list. -/
theorem freeSpot_ok {width height : Int} {nodes : List node} {draws : List (Nat × Nat)}
    {x y : Int} (h : freeSpot width height nodes draws = .ok (x, y)) :
    1 ≤ x ∧ x ≤ wrap64 (width - 2) ∧ 1 ≤ y ∧ y ≤ wrap64 (height - 2) ∧
      ∀ n ∈ nodes, ¬ (n.x = x ∧ n.y = y) := by
  induction draws with
  | nil =>
    unfold freeSpot at h
    split at h <;> cases h
  | cons p rest ih =>
    obtain ⟨rx, ry⟩ := p
    unfold freeSpot at h
    split at h
    · cases h
    · rename_i ix hx
      split at h
      · cases h
      · rename_i iy hy
        by_cases hany : nodes.any (fun n => decide (n.x = ix + 1 ∧ n.y = iy + 1)) = true
        · simp only [hany, if_true] at h
          exact ih h
        · simp only [hany] at h
          cases h
          obtain ⟨_, hx0, hx1⟩ := Intn_bounds hx
          obtain ⟨_, hy0, hy1⟩ := Intn_bounds hy
          refine ⟨by omega, by omega, by omega, by omega, ?_⟩
          intro n hn hxy
          apply hany
          rw [List.any_eq_true]
          exact ⟨n, hn, by simpa using hxy⟩

theorem wrap64_le_self {v : Int} (h : 1 ≤ v) : wrap64 v ≤ v := by
  unfold wrap64
  omega

/-- On a board with `width >= 3` and `height >= 3` what `freeSpot` returns is
inside the border ring and on no node. -/
theorem freeSpot_interior {width height : Int} {nodes : List node}
    {draws : List (Nat × Nat)} {x y : Int} (hw : 3 ≤ width) (hh : 3 ≤ height)
    (hret : freeSpot width height nodes draws = .ok (x, y)) :
    1 ≤ x ∧ x ≤ width - 2 ∧ 1 ≤ y ∧ y ≤ height - 2 ∧
      ∀ n ∈ nodes, ¬ (n.x = x ∧ n.y = y) := by
  obtain ⟨hx1, hx2, hy1, hy2, hfree⟩ := freeSpot_ok hret
  have h1 := @wrap64_le_self (width - 2) (by omega)
  have h2 := @wrap64_le_self (height - 2) (by omega)
  exact ⟨hx1, by omega, hy1, by omega, hfree⟩

/-- The collision loop sets `gameOver` exactly when some tail node is on the
head's cell. -/
theorem collide_eq (head : node) (tail : List node) (state : Int) :
    collide head tail state =
      if ∃ n ∈ tail, n.x = head.x ∧ n.y = head.y then gameOver else state := by
  unfold collide
  induction tail using List.reverseRecOn generalizing state with
  | nil => simp
  | append_singleton l a ih =>
    rw [List.foldl_append, ih]
    by_cases ha : a.x = head.x ∧ a.y = head.y
    · have : ∃ n ∈ l ++ [a], n.x = head.x ∧ n.y = head.y := ⟨a, by simp, ha⟩
      rw [if_pos this]
      simp [ha]
    · by_cases hl : ∃ n ∈ l, n.x = head.x ∧ n.y = head.y
      · have : ∃ n ∈ l ++ [a], n.x = head.x ∧ n.y = head.y := by
          obtain ⟨n, hn, hxy⟩ := hl
          exact ⟨n, by simp [hn], hxy⟩
        rw [if_pos this]
        simp [ha, hl]
      · have : ¬ ∃ n ∈ l ++ [a], n.x = head.x ∧ n.y = head.y := by
          rintro ⟨n, hn, hxy⟩
          rw [List.mem_append, List.mem_singleton] at hn
          rcases hn with hn | hn
          · exact hl ⟨n, hn, hxy⟩
          · exact ha (hn ▸ hxy)
        rw [if_neg this]
        simp [ha, hl]

/-- `consolidate` on a snake `body ++ [nh]`. -/
theorem consolidate_concat (g : game) (body : List node) (nh : node)
    (hs : g.snake.nodes = body ++ [nh]) (draws : List (Nat × Nat)) :
    g.consolidate draws =
      if onFood g nh then
        (freeSpot g.width g.height g.snake.nodes draws).bind fun p =>
          .ok { g with
            state := if hitsBody nh body ∨ onBorder g nh then gameOver else g.state
            snake := { g.snake with potential := 10 }
            score := wrap64 (g.score + 1)
            food := { x := p.1, y := p.2 } }
      else
        .ok { g with state := if hitsBody nh body ∨ onBorder g nh then gameOver else g.state } := by
  have hst : (if nh.x = 0 ∨ nh.x = wrap64 (g.width - 1) ∨ nh.y = 0 ∨
        nh.y = wrap64 (g.height - 1) then gameOver else collide nh body g.state) =
      if hitsBody nh body ∨ onBorder g nh then gameOver else g.state := by
    rw [collide_eq]
    unfold hitsBody onBorder
    by_cases hb : nh.x = 0 ∨ nh.x = wrap64 (g.width - 1) ∨ nh.y = 0 ∨
        nh.y = wrap64 (g.height - 1)
    · rw [if_pos hb, if_pos (Or.inr hb)]
    · rw [if_neg hb]
      by_cases hc : ∃ n ∈ body, n.x = nh.x ∧ n.y = nh.y
      · rw [if_pos hc, if_pos (Or.inl hc)]
      · rw [if_neg hc, if_neg (fun hor => hor.elim hc hb)]
  unfold game.consolidate snake.head snake.tail
  rw [hs, List.getLast?_concat]
  simp only [Outcome.bind, List.dropLast_concat]
  rw [hst]
  rfl

/-- `tick` on a playing game whose snake is `ini ++ [h]`: the body after the move,
the new head, and what `consolidate` makes of them. -/
theorem tick_concat (g : game) (ini : List node) (h : node) (hp : g.state = playing)
    (hs : g.snake.nodes = ini ++ [h]) (draws : List (Nat × Nat)) :
    ∃ body s1, g.snake.move = .ok s1 ∧
      s1.nodes = body ++ [stepFrom h.x h.y g.snake.d] ∧
      body = (if g.snake.potential > 0 then ini ++ [{ h with d := g.snake.d }]
        else (ini ++ [{ h with d := g.snake.d }]).drop 1) ∧
      g.tick draws = game.consolidate { g with snake := s1 } draws := by
  have hm := move_concat g.snake ini h hs
  by_cases hpot : g.snake.potential > 0
  · rw [if_pos hpot] at hm
    refine ⟨_, _, hm, rfl, by rw [if_pos hpot], ?_⟩
    simp [game.tick, hp, hm, Outcome.bind]
  · rw [if_neg hpot] at hm
    refine ⟨_, _, hm, rfl, by rw [if_neg hpot], ?_⟩
    simp [game.tick, hp, hm, Outcome.bind]

theorem bind_eq_ok {α β : Type} {o : Outcome α} {f : α → Outcome β} {b : β}
    (h : o.bind f = .ok b) : ∃ a, o = .ok a ∧ f a = .ok b := by
  cases o with
  | ok a => exact ⟨a, rfl, h⟩
  | panic => cases h
  | pending => cases h

/-- Everything a returning `tick` does to a playing game whose snake is
`ini ++ [h]`. -/
theorem tick_playing_ok (g g1 : game) (ini : List node) (h : node) (draws : List (Nat × Nat))
    (hp : g.state = playing) (hs : g.snake.nodes = ini ++ [h]) (ht : g.tick draws = .ok g1) :
    ∃ body s1, g.snake.move = .ok s1 ∧
      s1.nodes = body ++ [stepFrom h.x h.y g.snake.d] ∧
      body = (if g.snake.potential > 0 then ini ++ [{ h with d := g.snake.d }]
        else (ini ++ [{ h with d := g.snake.d }]).drop 1) ∧
      g1.snake.nodes = s1.nodes ∧ g1.snake.d = s1.d ∧
      g1.width = g.width ∧ g1.height = g.height ∧
      g1.state = (if hitsBody (stepFrom h.x h.y g.snake.d) body ∨
        onBorder g (stepFrom h.x h.y g.snake.d) then gameOver else playing) ∧
      (onFood g (stepFrom h.x h.y g.snake.d) →
        g1.snake.potential = 10 ∧ g1.score = wrap64 (g.score + 1) ∧
        freeSpot g.width g.height s1.nodes draws = .ok (g1.food.x, g1.food.y)) ∧
      (¬ onFood g (stepFrom h.x h.y g.snake.d) →
        g1.snake.potential = s1.potential ∧ g1.score = g.score ∧ g1.food = g.food) := by
  obtain ⟨body, s1, hm, hn, hb, htick⟩ := tick_concat g ini h hp hs draws
  refine ⟨body, s1, hm, hn, hb, ?_⟩
  rw [htick, consolidate_concat { g with snake := s1 } body _ hn draws] at ht
  by_cases hf : onFood g (stepFrom h.x h.y g.snake.d)
  · have hf1 : onFood { g with snake := s1 } (stepFrom h.x h.y g.snake.d) := hf
    rw [if_pos hf1] at ht
    obtain ⟨p, hfree, hg1⟩ := bind_eq_ok ht
    cases hg1
    refine ⟨rfl, rfl, rfl, rfl, ?_, fun _ => ⟨rfl, rfl, hfree⟩, fun hnf => absurd hf hnf⟩
    simp only [hp]
    rfl
  · have hf1 : ¬ onFood { g with snake := s1 } (stepFrom h.x h.y g.snake.d) := hf
    rw [if_neg hf1] at ht
    cases ht
    refine ⟨rfl, rfl, rfl, rfl, ?_, fun hyes => absurd hyes hf, fun _ => ⟨rfl, rfl, rfl⟩⟩
    simp only [hp]
    rfl

/-- A playing game whose new head is not on the food: `tick` returns, whatever
the draws. -/
theorem tick_playing_total (g : game) (ini : List node) (h : node) (draws : List (Nat × Nat))
    (hp : g.state = playing) (hs : g.snake.nodes = ini ++ [h])
    (hf : ¬ onFood g (stepFrom h.x h.y g.snake.d)) : ∃ g1, g.tick draws = .ok g1 := by
  obtain ⟨body, s1, _, hn, _, htick⟩ := tick_concat g ini h hp hs draws
  rw [htick, consolidate_concat { g with snake := s1 } body _ hn draws]
  have hf1 : ¬ onFood { g with snake := s1 } (stepFrom h.x h.y g.snake.d) := hf
  rw [if_neg hf1]
  exact ⟨_, rfl⟩

theorem newSnake_one_right :
    newSnake 1 right = .ok { nodes := [⟨5, 5, right⟩], d := right, potential := 5 } := by
  decide

/-- One tick of a playing one-segment snake heading right inside a 20x10 board,
with the food elsewhere: the snake grows to the right. -/
theorem tick_right_grow (ini : List node) (x p sc : Int) (f : food) (draws : List (Nat × Nat))
    (hx : 0 ≤ x ∧ x < 18) (hpot : 0 < p) (hf : ¬ (f.x = x + 1 ∧ f.y = 5))
    (hini : ∀ n ∈ ini, n.x ≤ x ∧ n.y = 5) :
    game.tick { snake := { nodes := ini ++ [⟨x, 5, right⟩], d := right, potential := p },
                state := playing, food := f, score := sc, width := 20, height := 10 } draws =
      .ok { snake := { nodes := ini ++ [⟨x, 5, right⟩] ++ [⟨x + 1, 5, right⟩], d := right,
                       potential := p - 1 },
            state := playing, food := f, score := sc, width := 20, height := 10 } := by
  have hstep : stepFrom x 5 right = ⟨x + 1, 5, right⟩ := by
    have hw : wrap64 (x + 1) = x + 1 := wrap64_of_isInt64 (by unfold isInt64; omega)
    simp [stepFrom, up, down, left, right, hw]
  obtain ⟨body, s1, hm, hn, hb, htick⟩ :=
    tick_concat { snake := { nodes := ini ++ [⟨x, 5, right⟩], d := right, potential := p },
                  state := playing, food := f, score := sc, width := 20, height := 10 }
      ini ⟨x, 5, right⟩ rfl rfl draws
  have hm2 := move_concat { nodes := ini ++ [⟨x, 5, right⟩], d := right, potential := p }
    ini ⟨x, 5, right⟩ rfl
  simp only [gt_iff_lt, hpot, if_true, hstep] at hm2 hb hn
  rw [hm2] at hm
  cases hm
  rw [htick, consolidate_concat _ (ini ++ [⟨x, 5, right⟩]) ⟨x + 1, 5, right⟩ rfl draws]
  have hnf : ¬ onFood
      { snake := { nodes := ini ++ [⟨x, 5, right⟩] ++ [⟨x + 1, 5, right⟩], d := right,
                   potential := p - 1 },
        state := playing, food := f, score := sc, width := 20, height := 10 }
      ⟨x + 1, 5, right⟩ := fun hon => hf ⟨hon.1.symm, hon.2.symm⟩
  have hnh : ¬ hitsBody ⟨x + 1, 5, right⟩ (ini ++ [⟨x, 5, right⟩]) := by
    rintro ⟨n, hn, hnx, _⟩
    rw [List.mem_append, List.mem_singleton] at hn
    rcases hn with hn | hn
    · have := (hini n hn).1
      simp only at hnx
      omega
    · subst hn
      simp only at hnx
      omega
  have hnb : ¬ onBorder
      { snake := { nodes := ini ++ [⟨x, 5, right⟩] ++ [⟨x + 1, 5, right⟩], d := right,
                   potential := p - 1 },
        state := playing, food := f, score := sc, width := 20, height := 10 }
      ⟨x + 1, 5, right⟩ := by
    unfold onBorder wrap64
    simp only
    omega
  rw [if_neg hnf, if_neg (fun hor => hor.elim hnh hnb)]

theorem hitsBody_iff (nh : node) (body : List node) :
    hitsBody nh body ↔ coord nh ∈ body.map coord := by
  unfold hitsBody coord
  rw [List.mem_map]
  constructor
  · rintro ⟨n, hn, hx, hy⟩
    exact ⟨n, hn, by rw [hx, hy]⟩
  · rintro ⟨n, hn, hxy⟩
    exact ⟨n, hn, congrArg Prod.fst hxy, congrArg Prod.snd hxy⟩

/-- A returning `tick` of a playing game with pairwise distinct segment cells ends
in `playing` or `gameOver`, and in `playing` only with pairwise distinct
cells. -/
theorem tick_keeps_distinct (g g1 : game) (draws : List (Nat × Nat))
    (hp : g.state = playing) (hd : distinctCoords g.snake) (ht : g.tick draws = .ok g1) :
    (g1.state = playing ∨ g1.state = gameOver) ∧
      (g1.state = playing → distinctCoords g1.snake) := by
  have hne : g.snake.nodes ≠ [] := by
    intro hnil
    simp [game.tick, hp, snake.move, hnil, Outcome.bind] at ht
  obtain ⟨ini, h, hs⟩ := exists_concat_of_ne_nil hne
  obtain ⟨body, s1, _, hn, hb, hnodes, _, _, _, hst, _, _⟩ :=
    tick_playing_ok g g1 ini h draws hp hs ht
  by_cases hc : hitsBody (stepFrom h.x h.y g.snake.d) body ∨
      onBorder g (stepFrom h.x h.y g.snake.d)
  · rw [if_pos hc] at hst
    refine ⟨Or.inr hst, fun hplay => ?_⟩
    rw [hst] at hplay
    exact absurd hplay (by decide)
  · rw [if_neg hc] at hst
    refine ⟨Or.inl hst, fun _ => ?_⟩
    have hold : ((ini ++ [{ h with d := g.snake.d }]).map coord).Nodup := by
      have hd2 := hd
      unfold distinctCoords at hd2
      rw [hs] at hd2
      simpa [coord] using hd2
    have hbody : (body.map coord).Nodup := by
      rw [hb]
      split
      · exact hold
      · exact List.Nodup.sublist ((List.drop_sublist 1 _).map coord) hold
    have hfresh : coord (stepFrom h.x h.y g.snake.d) ∉ body.map coord :=
      fun hmem => hc (Or.inl ((hitsBody_iff _ _).mpr hmem))
    unfold distinctCoords
    rw [hnodes, hn, List.map_append, List.nodup_append]
    refine ⟨hbody, by simp, ?_⟩
    intro c hc1 hc2
    rw [List.map_singleton, List.mem_singleton] at hc2
    subst hc2
    exact hfresh hc1

/-- A returning `redirect` changes neither the state nor the segments. -/
theorem act_redirect_ok (g g1 : game) (d : Int) (h : g.act (.redirect d) = .ok g1) :
    g1.state = g.state ∧ g1.snake.nodes = g.snake.nodes := by
  unfold game.act at h
  obtain ⟨s, hs, hg⟩ := bind_eq_ok h
  cases hg
  unfold snake.redirect at hs
  obtain ⟨hd, _, hif⟩ := bind_eq_ok hs
  split at hif <;> cases hif <;> exact ⟨rfl, rfl⟩

/-- The invariant of a run: the state is `playing` or `gameOver`, and while it is
`playing` the segment cells are pairwise distinct. -/
theorem act_keeps_distinct (g g1 : game) (a : Action)
    (hst : g.state = playing ∨ g.state = gameOver)
    (hd : g.state = playing → distinctCoords g.snake) (h : g.act a = .ok g1) :
    (g1.state = playing ∨ g1.state = gameOver) ∧
      (g1.state = playing → distinctCoords g1.snake) := by
  cases a with
  | redirect d =>
    obtain ⟨h1, h2⟩ := act_redirect_ok g g1 d h
    refine ⟨h1 ▸ hst, fun hp => ?_⟩
    have := hd (h1 ▸ hp)
    unfold distinctCoords at this ⊢
    rw [h2]
    exact this
  | tick draws =>
    have ht : g.tick draws = .ok g1 := h
    by_cases hp : g.state = playing
    · exact tick_keeps_distinct g g1 draws hp (hd hp) ht
    · have : g.tick draws = .ok g := by simp [game.tick, hp]
      rw [this] at ht
      cases ht
      exact ⟨hst, hd⟩

theorem run_keeps_distinct (acts : List Action) (g g1 : game)
    (hst : g.state = playing ∨ g.state = gameOver)
    (hd : g.state = playing → distinctCoords g.snake) (h : g.run acts = .ok g1) :
    (g1.state = playing ∨ g1.state = gameOver) ∧
      (g1.state = playing → distinctCoords g1.snake) := by
  induction acts generalizing g with
  | nil =>
    cases h
    exact ⟨hst, hd⟩
  | cons a rest ih =>
    unfold game.run at h
    obtain ⟨g2, h2, hrest⟩ := bind_eq_ok h
    obtain ⟨hst2, hd2⟩ := act_keeps_distinct g g2 a hst hd h2
    exact ih g2 hst2 hd2 hrest

theorem move_ne_nil (s : snake) (hne : s.nodes ≠ []) :
    ∃ s1, s.move = .ok s1 ∧ s1.nodes ≠ [] := by
  obtain ⟨ini, h, hs⟩ := exists_concat_of_ne_nil hne
  refine ⟨_, move_concat s ini h hs, ?_⟩
  split <;> simp

theorem redirect_ne_nil (s : snake) (d : Int) (hne : s.nodes ≠ []) :
    ∃ s1, s.redirect d = .ok s1 ∧ s1.nodes = s.nodes ∧ s1.potential = s.potential := by
  obtain ⟨ini, h, hs⟩ := exists_concat_of_ne_nil hne
  have hl : s.nodes.getLast? = some h := getLast?_of_concat hs
  by_cases hw : wrap8 (h.d + d) = 0
  · exact ⟨s, by simp [snake.redirect, snake.head, hl, Outcome.bind, hw], rfl, rfl⟩
  · exact ⟨{ s with d := d }, by simp [snake.redirect, snake.head, hl, Outcome.bind, hw],
      rfl, rfl⟩

theorem head_tail_of_ne_nil (s : snake) (hne : s.nodes ≠ []) :
    ∃ h t, s.head = .ok h ∧ s.tail = .ok t ∧ s.nodes = t ++ [h] := by
  obtain ⟨ini, h, hs⟩ := exists_concat_of_ne_nil hne
  have hl : s.nodes.getLast? = some h := getLast?_of_concat hs
  refine ⟨h, ini, ?_, ?_, hs⟩
  · simp [snake.head, hl]
  · simp [snake.tail, hl, hs]

/-- What a continuing iteration of `loop` can be: nothing, the switch to `exit`, a
tick, a redirect by one of the four directions, or the restart. -/
theorem loopStep_cases (g g1 : game) (i : Input) (h : g.loopStep i = .ok (some g1)) :
    g1 = g ∨ (g.state = playing ∧ g1 = { g with state := exit }) ∨
      (∃ draws, g.tick draws = .ok g1) ∨
      (∃ d, isDirection d ∧ g.act (.redirect d) = .ok g1) ∨
      (g.state = gameOver ∧
        g1 = { g with
          snake := { nodes := [⟨5, 5, right⟩], d := right, potential := 5 }
          score := 0
          state := playing }) := by
  have hred : ∀ d, isDirection d →
      ((g.snake.redirect d).bind fun s => Outcome.ok (some { g with snake := s })) =
        .ok (some g1) →
      ∃ d, isDirection d ∧ g.act (.redirect d) = .ok g1 := by
    intro d hd hb
    obtain ⟨s, hs, he⟩ := bind_eq_ok hb
    cases he
    exact ⟨d, hd, by simp [game.act, hs, Outcome.bind]⟩
  unfold game.loopStep at h
  split_ifs at h with hp hgo hex
  · cases i with
    | ticker draws =>
      obtain ⟨g2, ht, he⟩ := bind_eq_ok h
      cases he
      exact Or.inr (Or.inr (Or.inl ⟨draws, ht⟩))
    | nothing =>
      cases h
      exact Or.inl rfl
    | event k =>
      cases k with
      | KeyCtrlC =>
        cases h
        exact Or.inr (Or.inl ⟨hp, rfl⟩)
      | KeyArrowUp => exact Or.inr (Or.inr (Or.inr (Or.inl (hred up (Or.inl rfl) h))))
      | KeyArrowDown =>
        exact Or.inr (Or.inr (Or.inr (Or.inl (hred down (Or.inr (Or.inl rfl)) h))))
      | KeyArrowRight =>
        exact Or.inr (Or.inr (Or.inr (Or.inl
          (hred right (Or.inr (Or.inr (Or.inr rfl))) h))))
      | KeyArrowLeft =>
        exact Or.inr (Or.inr (Or.inr (Or.inl
          (hred left (Or.inr (Or.inr (Or.inl rfl))) h))))
      | KeyEsc =>
        cases h
        exact Or.inl rfl
      | KeySpace =>
        cases h
        exact Or.inl rfl
      | other =>
        cases h
        exact Or.inl rfl
  · cases i with
    | ticker draws =>
      cases h
      exact Or.inl rfl
    | nothing =>
      cases h
      exact Or.inl rfl
    | event k =>
      cases k with
      | KeySpace =>
        rw [newSnake_one_right] at h
        cases h
        exact Or.inr (Or.inr (Or.inr (Or.inr ⟨hgo, rfl⟩)))
      | KeyEsc => cases h
      | KeyCtrlC => cases h
      | KeyArrowUp =>
        cases h
        exact Or.inl rfl
      | KeyArrowDown =>
        cases h
        exact Or.inl rfl
      | KeyArrowRight =>
        cases h
        exact Or.inl rfl
      | KeyArrowLeft =>
        cases h
        exact Or.inl rfl
      | other =>
        cases h
        exact Or.inl rfl
  · cases h
  · cases h
    exact Or.inl rfl

/-- What a step of a run can be. -/
theorem op_cases (g g1 : game) (o : Op) (h : g.op o = .ok g1) :
    g1 = g ∨ (g.state = playing ∧ g1 = { g with state := exit }) ∨
      (∃ draws, g.tick draws = .ok g1) ∨
      (∃ d, g.act (.redirect d) = .ok g1) ∨
      (g.state = gameOver ∧
        g1 = { g with
          snake := { nodes := [⟨5, 5, right⟩], d := right, potential := 5 }
          score := 0
          state := playing }) := by
  cases o with
  | call a =>
    cases a with
    | redirect d => exact Or.inr (Or.inr (Or.inr (Or.inl ⟨d, h⟩)))
    | tick draws => exact Or.inr (Or.inr (Or.inl ⟨draws, h⟩))
  | loop i =>
    unfold game.op at h
    obtain ⟨r, hr, he⟩ := bind_eq_ok h
    cases r with
    | none =>
      cases he
      exact Or.inl rfl
    | some g2 =>
      cases he
      rcases loopStep_cases g g1 i hr with h1 | h1 | h1 | ⟨d, _, h1⟩ | h1
      · exact Or.inl h1
      · exact Or.inr (Or.inl h1)
      · exact Or.inr (Or.inr (Or.inl h1))
      · exact Or.inr (Or.inr (Or.inr (Or.inl ⟨d, h1⟩)))
      · exact Or.inr (Or.inr (Or.inr (Or.inr h1)))

/-- A returning tick leaves a snake with at least one segment. -/
theorem tick_ne_nil (g g1 : game) (draws : List (Nat × Nat))
    (hne : g.snake.nodes ≠ []) (ht : g.tick draws = .ok g1) : g1.snake.nodes ≠ [] := by
  by_cases hp : g.state = playing
  · obtain ⟨ini, h, hs⟩ := exists_concat_of_ne_nil hne
    obtain ⟨body, s1, _, hn, _, hnodes, _⟩ := tick_playing_ok g g1 ini h draws hp hs ht
    rw [hnodes, hn]
    simp
  · have : g.tick draws = .ok g := by simp [game.tick, hp]
    rw [this] at ht
    cases ht
    exact hne

theorem op_ne_nil (g g1 : game) (o : Op) (hne : g.snake.nodes ≠ [])
    (h : g.op o = .ok g1) : g1.snake.nodes ≠ [] := by
  rcases op_cases g g1 o h with h1 | ⟨_, h1⟩ | ⟨draws, h1⟩ | ⟨d, h1⟩ | ⟨_, h1⟩
  · rw [h1]
    exact hne
  · rw [h1]
    exact hne
  · exact tick_ne_nil g g1 draws hne h1
  · rw [(act_redirect_ok g g1 d h1).2]
    exact hne
  · rw [h1]
    simp

theorem ops_ne_nil (ops : List Op) (g g1 : game) (hne : g.snake.nodes ≠ [])
    (h : g.ops ops = .ok g1) : g1.snake.nodes ≠ [] := by
  induction ops generalizing g with
  | nil =>
    cases h
    exact hne
  | cons o rest ih =>
    unfold game.ops at h
    obtain ⟨g2, h2, hrest⟩ := bind_eq_ok h
    exact ih g2 (op_ne_nil g g2 o hne h2) hrest

theorem coord_stepFrom (x y d : Int) : coord (stepFrom x y d) = specStep (x, y) d := by
  unfold stepFrom specStep coord
  split_ifs <;> rfl

theorem Intn_of_pos {n : Int} (raw : Nat) (hn : 0 < n) :
    Intn n raw = some ((raw : Int) % n) := by
  unfold Intn
  rw [if_neg (by omega)]

/-- With a non-positive bound `freeSpot` panics, whatever the draws. -/
theorem freeSpot_panic {width height : Int} (nodes : List node) (draws : List (Nat × Nat))
    (h : wrap64 (width - 2) ≤ 0 ∨ wrap64 (height - 2) ≤ 0) :
    freeSpot width height nodes draws = .panic := by
  cases draws with
  | nil =>
    unfold freeSpot
    rw [if_pos h]
  | cons p rest =>
    obtain ⟨rx, ry⟩ := p
    unfold freeSpot
    by_cases hx : wrap64 (width - 2) ≤ 0
    · simp [Intn, hx]
    · have hy : wrap64 (height - 2) ≤ 0 := h.resolve_left hx
      simp [Intn, hx, hy]

/-- With positive bounds `freeSpot` does not panic. -/
theorem freeSpot_ne_panic {width height : Int} (nodes : List node)
    (draws : List (Nat × Nat)) (hx : 0 < wrap64 (width - 2)) (hy : 0 < wrap64 (height - 2)) :
    freeSpot width height nodes draws ≠ .panic := by
  induction draws with
  | nil =>
    unfold freeSpot
    rw [if_neg (by omega)]
    exact fun h => by cases h
  | cons p rest ih =>
    obtain ⟨rx, ry⟩ := p
    unfold freeSpot
    rw [Intn_of_pos rx hx, Intn_of_pos ry hy]
    simp only
    split
    · exact ih
    · exact fun h => by cases h

/-- On a fully covered interior an attempt of `freeSpot` is rejected. -/
theorem freeSpot_retry {width height : Int} {nodes : List node} (p : Nat × Nat)
    (rest : List (Nat × Nat)) (hw : 3 ≤ width) (hh : 3 ≤ height)
    (hc : coversInterior width height nodes) :
    freeSpot width height nodes (p :: rest) = freeSpot width height nodes rest := by
  by_cases hpos : 0 < wrap64 (width - 2) ∧ 0 < wrap64 (height - 2)
  · obtain ⟨hx, hy⟩ := hpos
    obtain ⟨rx, ry⟩ := p
    have h1 := @wrap64_le_self (width - 2) (by omega)
    have h2 := @wrap64_le_self (height - 2) (by omega)
    have bx0 := Int.emod_nonneg (rx : Int) (show wrap64 (width - 2) ≠ 0 by omega)
    have bx1 := Int.emod_lt_of_pos (rx : Int) hx
    have by0 := Int.emod_nonneg (ry : Int) (show wrap64 (height - 2) ≠ 0 by omega)
    have by1 := Int.emod_lt_of_pos (ry : Int) hy
    obtain ⟨n, hn, hnx, hny⟩ := hc ((rx : Int) % wrap64 (width - 2) + 1)
      ((ry : Int) % wrap64 (height - 2) + 1) (by omega) (by omega) (by omega) (by omega)
    have hany : nodes.any (fun n => decide (n.x = (rx : Int) % wrap64 (width - 2) + 1 ∧
        n.y = (ry : Int) % wrap64 (height - 2) + 1)) = true := by
      rw [List.any_eq_true]
      exact ⟨n, hn, by simp [hnx, hny]⟩
    conv_lhs => unfold freeSpot
    rw [Intn_of_pos rx hx, Intn_of_pos ry hy]
    simp only [hany, if_true]
  · have hor : wrap64 (width - 2) ≤ 0 ∨ wrap64 (height - 2) ≤ 0 := by omega
    rw [freeSpot_panic nodes (p :: rest) hor, freeSpot_panic nodes rest hor]

/-- With positive bounds a returning-or-not `tick` does not panic on a snake with
at least one segment. -/
theorem tick_ne_panic (g : game) (draws : List (Nat × Nat)) (hne : g.snake.nodes ≠ [])
    (hx : 0 < wrap64 (g.width - 2)) (hy : 0 < wrap64 (g.height - 2)) :
    g.tick draws ≠ .panic := by
  by_cases hp : g.state = playing
  · obtain ⟨ini, h, hs⟩ := exists_concat_of_ne_nil hne
    obtain ⟨body, s1, _, hn, _, htick⟩ := tick_concat g ini h hp hs draws
    rw [htick, consolidate_concat { g with snake := s1 } body _ hn draws]
    split
    · have hfree := freeSpot_ne_panic s1.nodes draws hx hy
      intro hbad
      cases hf : freeSpot g.width g.height s1.nodes draws with
      | ok p =>
        have hf2 : freeSpot ({ g with snake := s1 } : game).width
            ({ g with snake := s1 } : game).height
            ({ g with snake := s1 } : game).snake.nodes draws = .ok p := hf
        rw [hf2] at hbad
        cases hbad
      | panic => exact hfree hf
      | pending =>
        have hf2 : freeSpot ({ g with snake := s1 } : game).width
            ({ g with snake := s1 } : game).height
            ({ g with snake := s1 } : game).snake.nodes draws = .pending := hf
        rw [hf2] at hbad
        cases hbad
    · exact fun hbad => by cases hbad
  · have : g.tick draws = .ok g := by simp [game.tick, hp]
    rw [this]
    exact fun hbad => by cases hbad

/-- A returning `redirect` call changes nothing of the game but the snake's
intended direction. -/
theorem act_redirect_frame (g g1 : game) (d : Int) (h : g.act (.redirect d) = .ok g1) :
    g1.state = g.state ∧ g1.snake.nodes = g.snake.nodes ∧ g1.score = g.score ∧
      g1.food = g.food ∧ g1.width = g.width ∧ g1.height = g.height := by
  unfold game.act at h
  obtain ⟨s, hs, hg⟩ := bind_eq_ok h
  cases hg
  unfold snake.redirect at hs
  obtain ⟨hd, _, hif⟩ := bind_eq_ok hs
  split at hif <;> cases hif <;> exact ⟨rfl, rfl, rfl, rfl, rfl, rfl⟩

/-- Every segment of the body after a move is on the cell of a segment before
it. -/
theorem body_coord_mem (ini : List node) (h : node) (d p : Int) (n : node)
    (hn : n ∈ (if p > 0 then ini ++ [{ h with d := d }]
      else (ini ++ [{ h with d := d }]).drop 1)) :
    ∃ m ∈ ini ++ [h], m.x = n.x ∧ m.y = n.y := by
  have hmem : n ∈ ini ++ [{ h with d := d }] := by
    split at hn
    · exact hn
    · exact List.mem_of_mem_drop hn
  rw [List.mem_append, List.mem_singleton] at hmem
  rcases hmem with hm | hm
  · exact ⟨n, by simp [hm], rfl, rfl⟩
  · exact ⟨h, by simp, by rw [hm], by rw [hm]⟩

/-- A playing game can only tick on a snake with at least one segment. -/
theorem nodes_ne_nil_of_tick (g g1 : game) (draws : List (Nat × Nat))
    (hp : g.state = playing) (ht : g.tick draws = .ok g1) : g.snake.nodes ≠ [] := by
  intro hnil
  simp [game.tick, hp, snake.move, hnil, Outcome.bind] at ht

/-- One step from a cell strictly inside the ring, when it does not end on the
border, ends strictly inside the ring. -/
theorem stepFrom_inside (g : game) (h : node) (d : Int)
    (hwi : isInt64 g.width) (hhi : isInt64 g.height) (hin : insideRing g h)
    (hnb : ¬ onBorder g (stepFrom h.x h.y d)) : insideRing g (stepFrom h.x h.y d) := by
  unfold insideRing at hin ⊢
  unfold isInt64 at hwi hhi
  unfold onBorder at hnb
  unfold stepFrom at hnb ⊢
  unfold wrap64 at hnb ⊢
  split_ifs at hnb ⊢ <;> simp only at hnb ⊢ <;> omega

/-- A returning tick keeps the board and, when it leaves the game playing, keeps
the segments strictly inside the border ring. -/
theorem tick_keeps_inside (g g1 : game) (draws : List (Nat × Nat))
    (hwi : isInt64 g.width) (hhi : isInt64 g.height)
    (hin : g.state = playing → ∀ n ∈ g.snake.nodes, insideRing g n)
    (ht : g.tick draws = .ok g1) :
    g1.width = g.width ∧ g1.height = g.height ∧
      (g1.state = playing → ∀ n ∈ g1.snake.nodes, insideRing g1 n) := by
  by_cases hp : g.state = playing
  · have hne := nodes_ne_nil_of_tick g g1 draws hp ht
    obtain ⟨ini, h, hs⟩ := exists_concat_of_ne_nil hne
    obtain ⟨body, s1, _, hn, hb, hnodes, _, hwid, hhei, hst, _, _⟩ :=
      tick_playing_ok g g1 ini h draws hp hs ht
    refine ⟨hwid, hhei, fun hplay n hmem => ?_⟩
    have hring : ∀ m : node, insideRing g m → insideRing g1 m := by
      intro m hm
      unfold insideRing at hm ⊢
      rw [hwid, hhei]
      exact hm
    by_cases hc : hitsBody (stepFrom h.x h.y g.snake.d) body ∨
        onBorder g (stepFrom h.x h.y g.snake.d)
    · rw [if_pos hc] at hst
      rw [hst] at hplay
      exact absurd hplay (by decide)
    · rw [hnodes, hn, List.mem_append, List.mem_singleton] at hmem
      rcases hmem with hmem | hmem
      · rw [hb] at hmem
        obtain ⟨m, hm, hmx, hmy⟩ := body_coord_mem ini h g.snake.d g.snake.potential n hmem
        rw [← hs] at hm
        have := hin hp m hm
        apply hring
        unfold insideRing at this ⊢
        rw [← hmx, ← hmy]
        exact this
      · rw [hmem]
        apply hring
        have hh : h ∈ g.snake.nodes := by
          rw [hs]
          simp
        exact stepFrom_inside g h g.snake.d hwi hhi (hin hp h hh)
          (fun hbord => hc (Or.inr hbord))
  · have : g.tick draws = .ok g := by simp [game.tick, hp]
    rw [this] at ht
    cases ht
    exact ⟨rfl, rfl, hin⟩

/-- A step of a run on a board of at least 7 by 7 keeps the board and, when it
leaves the game playing, keeps the segments strictly inside the border ring. -/
theorem op_keeps_inside (g g1 : game) (o : Op)
    (hw : 7 ≤ g.width) (hwi : isInt64 g.width) (hh : 7 ≤ g.height) (hhi : isInt64 g.height)
    (hin : g.state = playing → ∀ n ∈ g.snake.nodes, insideRing g n)
    (h : g.op o = .ok g1) :
    g1.width = g.width ∧ g1.height = g.height ∧
      (g1.state = playing → ∀ n ∈ g1.snake.nodes, insideRing g1 n) := by
  rcases op_cases g g1 o h with h1 | ⟨_, h1⟩ | ⟨draws, h1⟩ | ⟨d, h1⟩ | ⟨_, h1⟩
  · rw [h1]
    exact ⟨rfl, rfl, hin⟩
  · rw [h1]
    exact ⟨rfl, rfl, fun hbad => absurd (show exit = playing from hbad) (by decide)⟩
  · exact tick_keeps_inside g g1 draws hwi hhi hin h1
  · obtain ⟨hst, hnodes, _, _, hwid, hhei⟩ := act_redirect_frame g g1 d h1
    refine ⟨hwid, hhei, fun hplay n hmem => ?_⟩
    rw [hnodes] at hmem
    have := hin (hst ▸ hplay) n hmem
    unfold insideRing at this ⊢
    rw [hwid, hhei]
    exact this
  · rw [h1]
    refine ⟨rfl, rfl, fun _ n hmem => ?_⟩
    simp only [List.mem_singleton] at hmem
    rw [hmem]
    unfold insideRing
    simp only
    omega

theorem ops_keep_inside (ops : List Op) (g g1 : game)
    (hw : 7 ≤ g.width) (hwi : isInt64 g.width) (hh : 7 ≤ g.height) (hhi : isInt64 g.height)
    (hin : g.state = playing → ∀ n ∈ g.snake.nodes, insideRing g n)
    (h : g.ops ops = .ok g1) :
    g1.width = g.width ∧ g1.height = g.height ∧
      (g1.state = playing → ∀ n ∈ g1.snake.nodes, insideRing g1 n) := by
  induction ops generalizing g with
  | nil =>
    cases h
    exact ⟨rfl, rfl, hin⟩
  | cons o rest ih =>
    unfold game.ops at h
    obtain ⟨g2, h2, hrest⟩ := bind_eq_ok h
    obtain ⟨hwid, hhei, hin2⟩ := op_keeps_inside g g2 o hw hwi hh hhi hin h2
    obtain ⟨hwid3, hhei3, hin3⟩ :=
      ih g2 (hwid ▸ hw) (hwid ▸ hwi) (hhei ▸ hh) (hhei ▸ hhi) hin2 hrest
    exact ⟨hwid3.trans hwid, hhei3.trans hhei, hin3⟩

/-- One step in one of the four directions is one grid step. -/
theorem gridDist_step (a : node) (d : Int) (hd : isDirection d) :
    gridDist a (stepFrom a.x a.y d) = 1 := by
  unfold gridDist
  rcases hd with hd | hd | hd | hd <;> subst hd <;>
    simp only [stepFrom, up, down, left, right] <;> unfold wrap64 <;> norm_num <;> omega

/-- A step in a direction that is not the opposite of the one by which the head
came from the segment behind it does not lead back onto that segment. -/
theorem step_not_back (b h : node) (d : Int) (hd : isDirection d)
    (hno : ¬ opposite d h.d) (hk : coord h = coord (stepFrom b.x b.y h.d)) :
    coord (stepFrom h.x h.y d) ≠ coord b := by
  have hkx : h.x = (stepFrom b.x b.y h.d).x := congrArg Prod.fst hk
  have hky : h.y = (stepFrom b.x b.y h.d).y := congrArg Prod.snd hk
  intro hbad
  have hbx : (stepFrom h.x h.y d).x = b.x := congrArg Prod.fst hbad
  have hby : (stepFrom h.x h.y d).y = b.y := congrArg Prod.snd hbad
  unfold opposite at hno
  unfold isDirection at hd
  unfold stepFrom at hkx hky hbx hby
  unfold up down left right at *
  unfold wrap64 at *
  split_ifs at hkx hky hbx hby <;> simp only at hkx hky hbx hby <;> omega

theorem not_opposite_self (d : Int) : ¬ opposite d d := by
  unfold opposite up down left right
  omega

/-- The slice after a move is the old slice with the head's direction rewritten
and the new head appended, without its first element when nothing grows. -/
theorem move_nodes (s : snake) (ini : List node) (h : node) (hs : s.nodes = ini ++ [h]) :
    ∃ s1, s.move = .ok s1 ∧ s1.d = s.d ∧
      (s1.nodes = ini ++ [{ h with d := s.d }, stepFrom h.x h.y s.d] ∨
        s1.nodes = (ini ++ [{ h with d := s.d }, stepFrom h.x h.y s.d]).drop 1) := by
  refine ⟨_, move_concat s ini h hs, ?_, ?_⟩
  · split <;> rfl
  · split
    · left
      simp
    · right
      cases ini <;> simp

/-- The last two elements of a list that ends in two given elements. -/
theorem last_two_eq {pre ini : List node} {a b c d : node}
    (h : ini ++ [a, b] = pre ++ [c, d]) : a = c ∧ b = d := by
  have := (List.append_inj' h rfl).2
  simp only [List.cons.injEq, and_true] at this
  exact this

theorem last_two_of_drop {pre ini : List node} {a b c d : node}
    (h : (ini ++ [a, b]).drop 1 = pre ++ [c, d]) : a = c ∧ b = d := by
  have h2 : ini ++ [a, b] = ((ini ++ [a, b]).take 1 ++ pre) ++ [c, d] := by
    rw [List.append_assoc, ← h, List.take_append_drop]
  exact last_two_eq h2

/-- After a returning `redirect` the intended direction is not the opposite of
the head's recorded direction if it was not before. -/
theorem redirect_noReversal (s s1 : snake) (d : Int) (hc : noReversal s)
    (h : s.redirect d = .ok s1) : noReversal s1 ∧ s1.nodes = s.nodes := by
  unfold snake.redirect at h
  obtain ⟨hd, hhead, hif⟩ := bind_eq_ok h
  have hl : s.nodes.getLast? = some hd := by
    unfold snake.head at hhead
    split at hhead
    · rename_i h2 heq
      cases hhead
      exact heq
    · cases hhead
  split at hif
  · rename_i hw
    cases hif
    refine ⟨?_, rfl⟩
    unfold noReversal
    simp only [hl]
    unfold opposite up down left right
    unfold wrap8 at hw
    omega
  · cases hif
    exact ⟨hc, rfl⟩

/-- After a returning `move` the head records the direction of the move, which is
still the intended direction. -/
theorem move_noReversal (s s1 : snake) (h : s.move = .ok s1) :
    noReversal s1 ∧ s1.d = s.d ∧ ∃ nh, s1.nodes.getLast? = some nh ∧ nh.d = s.d := by
  have hne : s.nodes ≠ [] := by
    intro hnil
    simp [snake.move, hnil] at h
  obtain ⟨ini, hd, hs⟩ := exists_concat_of_ne_nil hne
  have hm := move_concat s ini hd hs
  rw [hm] at h
  have hl : s1.nodes.getLast? = some (stepFrom hd.x hd.y s.d) := by
    rw [← Outcome.ok.inj h]
    split <;> exact List.getLast?_concat _
  have hd1 : s1.d = s.d := by
    rw [← Outcome.ok.inj h]
    split <;> rfl
  refine ⟨?_, hd1, _, hl, stepFrom_d _ _ _⟩
  unfold noReversal
  simp only [hl, stepFrom_d, hd1]
  exact not_opposite_self s.d

theorem ops_noReversal (ops : List SnakeOp) (s s1 : snake) (hc : noReversal s)
    (h : s.ops ops = .ok s1) : noReversal s1 := by
  induction ops generalizing s with
  | nil =>
    cases h
    exact hc
  | cons o rest ih =>
    unfold snake.ops at h
    obtain ⟨s2, h2, hrest⟩ := bind_eq_ok h
    cases o with
    | redirect d => exact ih s2 (redirect_noReversal s s2 d hc h2).1 hrest
    | move => exact ih s2 (move_noReversal s s2 h2).1 hrest

/-- Redirects alone leave the slice as it is. -/
theorem redirects_nodes (ds : List Int) (s s1 : snake) (hc : noReversal s)
    (h : s.ops (ds.map SnakeOp.redirect) = .ok s1) : s1.nodes = s.nodes := by
  induction ds generalizing s with
  | nil =>
    cases h
    rfl
  | cons d rest ih =>
    simp only [List.map_cons] at h
    unfold snake.ops at h
    obtain ⟨s2, h2, hrest⟩ := bind_eq_ok h
    obtain ⟨hc2, hn2⟩ := redirect_noReversal s s2 d hc h2
    rw [ih s2 hc2 hrest, hn2]

/-! ## Properties of the snake -/

/-- C4: for a snake with at least one segment `move` returns; when pending growth
was positive the snake has one segment more and pending growth is one less,
and when pending growth was 0 both are unchanged. -/
theorem move_length_potential (s : snake) (hne : s.nodes ≠ []) :
    ∃ s1, s.move = .ok s1 ∧
      (0 < s.potential →
        s1.nodes.length = s.nodes.length + 1 ∧ s1.potential = s.potential - 1) ∧
      (s.potential = 0 →
        s1.nodes.length = s.nodes.length ∧ s1.potential = s.potential) := by
  obtain ⟨ini, h, hs⟩ := exists_concat_of_ne_nil hne
  refine ⟨_, move_concat s ini h hs, ?_, ?_⟩
  · intro hp
    rw [if_pos hp, hs]
    simp
  · intro hp
    have hnp : ¬ s.potential > 0 := by omega
    rw [if_neg hnp, hs]
    simp

theorem move_length_potential_witness :
    ∃ s1, snake.move { nodes := [⟨5, 5, 2⟩, ⟨6, 5, 2⟩], d := -1, potential := 1 } = .ok s1 ∧
      ((0 : Int) < 1 → s1.nodes.length = 2 + 1 ∧ s1.potential = 1 - 1) ∧
      ((1 : Int) = 0 → s1.nodes.length = 2 ∧ s1.potential = 1) :=
  move_length_potential { nodes := [⟨5, 5, 2⟩, ⟨6, 5, 2⟩], d := -1, potential := 1 } (by decide)

/-- C5: for a snake with at least one segment, whose head is `h`, `move` returns a
snake whose head (last segment) records the intended direction `s.d` and lies
one cell from `h` in that direction, in the arithmetic of `int`: up is
`(x, y-1)`, down `(x, y+1)`, left `(x-1, y)`, right `(x+1, y)`.  A snake of one
segment is included. -/
theorem move_new_head (s : snake) (h : node) (hh : s.nodes.getLast? = some h) :
    ∃ s1 nh, s.move = .ok s1 ∧ s1.nodes.getLast? = some nh ∧ nh.d = s.d ∧
      (s.d = up → nh.x = h.x ∧ nh.y = wrap64 (h.y - 1)) ∧
      (s.d = down → nh.x = h.x ∧ nh.y = wrap64 (h.y + 1)) ∧
      (s.d = left → nh.x = wrap64 (h.x - 1) ∧ nh.y = h.y) ∧
      (s.d = right → nh.x = wrap64 (h.x + 1) ∧ nh.y = h.y) := by
  obtain ⟨ini, hs⟩ := List.getLast?_eq_some_iff.mp hh
  refine ⟨_, stepFrom h.x h.y s.d, move_concat s ini h hs, ?_, stepFrom_d _ _ _, ?_, ?_, ?_, ?_⟩
  · split <;> exact List.getLast?_concat _
  all_goals
    intro hd
    simp [stepFrom, hd, up, down, left, right]

theorem move_new_head_witness :
    ∃ s1 nh, snake.move { nodes := [⟨5, 5, 2⟩], d := -1, potential := 0 } = .ok s1 ∧
      s1.nodes.getLast? = some nh ∧ nh.d = -1 ∧
      ((-1 : Int) = up → nh.x = 5 ∧ nh.y = wrap64 (5 - 1)) ∧
      ((-1 : Int) = down → nh.x = 5 ∧ nh.y = wrap64 (5 + 1)) ∧
      ((-1 : Int) = left → nh.x = wrap64 (5 - 1) ∧ nh.y = 5) ∧
      ((-1 : Int) = right → nh.x = wrap64 (5 + 1) ∧ nh.y = 5) :=
  move_new_head { nodes := [⟨5, 5, 2⟩], d := -1, potential := 0 } ⟨5, 5, 2⟩ (by decide)

/-- C6: for a snake with at least one segment, whose head records an `int8`
direction, and `d` one of the four directions: `redirect d` returns; the
intended direction is unchanged when `d` is the opposite of the head's recorded
direction and becomes `d` otherwise; segments and pending growth are unchanged;
a second `redirect d` changes nothing more. -/
theorem redirect_spec (s : snake) (h : node) (d : Int)
    (hh : s.nodes.getLast? = some h) (h8 : isInt8 h.d) (hd : isDirection d) :
    ∃ s1, s.redirect d = .ok s1 ∧
      (opposite d h.d → s1.d = s.d) ∧
      (¬ opposite d h.d → s1.d = d) ∧
      s1.nodes = s.nodes ∧ s1.potential = s.potential ∧
      s1.redirect d = .ok s1 := by
  have hiff : wrap8 (h.d + d) = 0 ↔ opposite d h.d := by
    unfold isInt8 at h8
    unfold isDirection at hd
    unfold wrap8 opposite up down left right
    unfold up down left right at hd
    omega
  by_cases hw : wrap8 (h.d + d) = 0
  · refine ⟨s, ?_, fun _ => rfl, fun hn => absurd (hiff.mp hw) hn, rfl, rfl, ?_⟩ <;>
      simp [snake.redirect, snake.head, hh, Outcome.bind, hw]
  · refine ⟨{ s with d := d }, ?_, fun ho => absurd (hiff.mpr ho) hw, fun _ => rfl, rfl, rfl, ?_⟩ <;>
      simp [snake.redirect, snake.head, hh, Outcome.bind, hw]

theorem redirect_spec_witness :
    ∃ s1, snake.redirect { nodes := [⟨5, 5, 2⟩], d := 2, potential := 5 } (-2) = .ok s1 ∧
      (opposite (-2) 2 → s1.d = 2) ∧
      (¬ opposite (-2) 2 → s1.d = -2) ∧
      s1.nodes = [⟨5, 5, 2⟩] ∧ s1.potential = 5 ∧
      s1.redirect (-2) = .ok s1 :=
  redirect_spec { nodes := [⟨5, 5, 2⟩], d := 2, potential := 5 } ⟨5, 5, 2⟩ (-2)
    (by decide) (by decide) (by decide)

/-! ## Properties of food placement -/

/-- C7: on a board with `width >= 3` and `height >= 3`, for every list of nodes and
every sequence of draws on which `freeSpot` returns `(x, y)`:
`1 <= x <= width-2`, `1 <= y <= height-2`, and no node of the list is at
`(x, y)`. -/
theorem freeSpot_spec (width height : Int) (nodes : List node) (draws : List (Nat × Nat))
    (x y : Int) (hw : 3 ≤ width) (hh : 3 ≤ height)
    (hret : freeSpot width height nodes draws = .ok (x, y)) :
    1 ≤ x ∧ x ≤ width - 2 ∧ 1 ≤ y ∧ y ≤ height - 2 ∧
      ∀ n ∈ nodes, ¬ (n.x = x ∧ n.y = y) := by
  obtain ⟨hx1, hx2, hy1, hy2, hfree⟩ := freeSpot_interior hw hh hret
  exact ⟨hx1, hx2, hy1, hy2, fun n hn => hfree n hn⟩

theorem freeSpot_spec_witness :
    1 ≤ (1 : Int) ∧ (1 : Int) ≤ 20 - 2 ∧ 1 ≤ (1 : Int) ∧ (1 : Int) ≤ 10 - 2 ∧
      ∀ n ∈ [(⟨5, 5, 2⟩ : node), ⟨6, 5, 2⟩], ¬ (n.x = 1 ∧ n.y = 1) :=
  freeSpot_spec 20 10 [⟨5, 5, 2⟩, ⟨6, 5, 2⟩] [(4, 4), (0, 0)] 1 1
    (by decide) (by decide) (by decide)

/-! ## Properties of the game -/

/-- C1: from a playing game whose segments are on pairwise distinct cells, after any
returning sequence of redirects and ticks: if the state is `playing` the
segments are on pairwise distinct cells, and a further tick that leaves two
segments on one cell leaves the state `gameOver`. -/
theorem run_distinct (g : game) (acts : List Action) (g1 : game)
    (hp : g.state = playing) (hd : distinctCoords g.snake) (hr : g.run acts = .ok g1) :
    (g1.state = playing → distinctCoords g1.snake) ∧
      (∀ draws g2, g1.tick draws = .ok g2 → ¬ distinctCoords g2.snake →
        g2.state = gameOver) := by
  obtain ⟨hst1, hd1⟩ := run_keeps_distinct acts g g1 (Or.inl hp) (fun _ => hd) hr
  refine ⟨hd1, ?_⟩
  intro draws g2 ht hnd
  obtain ⟨hst2, hd2⟩ := act_keeps_distinct g1 g2 (.tick draws) hst1 hd1 ht
  rcases hst2 with hplay | hover
  · exact absurd (hd2 hplay) hnd
  · exact hover

theorem run_distinct_witness :
    (playing = playing →
      distinctCoords { nodes := [⟨5, 5, right⟩, ⟨6, 5, up⟩, ⟨6, 4, up⟩], d := up, potential := 3 }) ∧
    (∀ draws g2,
      game.tick
        { snake := { nodes := [⟨5, 5, right⟩, ⟨6, 5, up⟩, ⟨6, 4, up⟩], d := up, potential := 3 },
          state := playing, food := ⟨1, 1⟩, score := 0, width := 20, height := 10 }
        draws = .ok g2 →
      ¬ distinctCoords g2.snake → g2.state = gameOver) :=
  run_distinct
    { snake := { nodes := [⟨5, 5, right⟩], d := right, potential := 5 },
      state := playing, food := ⟨1, 1⟩, score := 0, width := 20, height := 10 }
    [.tick [], .redirect up, .tick []]
    { snake := { nodes := [⟨5, 5, right⟩, ⟨6, 5, up⟩, ⟨6, 4, up⟩], d := up, potential := 3 },
      state := playing, food := ⟨1, 1⟩, score := 0, width := 20, height := 10 }
    (by decide) (by decide) (by decide)

/-- C2: for a playing game with a non-empty snake the move returns a snake with a
head `nh`, and every returning `tick` leaves the state `gameOver` exactly when
`nh` is on the cell of a non-head segment or on the border ring, and `playing`
otherwise; in particular `nh.x = 0` gives `gameOver`.  When `nh` is not on the
food, `tick` returns for every sequence of draws. -/
theorem tick_game_over_iff (g : game) (hp : g.state = playing) (hne : g.snake.nodes ≠ []) :
    ∃ s1 nh, g.snake.move = .ok s1 ∧ s1.nodes.getLast? = some nh ∧
      (∀ draws g1, g.tick draws = .ok g1 →
        (g1.state = gameOver ↔ hitsBody nh s1.nodes.dropLast ∨ onBorder g nh) ∧
        (¬ (hitsBody nh s1.nodes.dropLast ∨ onBorder g nh) → g1.state = playing) ∧
        (nh.x = 0 → g1.state = gameOver)) ∧
      (∀ draws, ¬ onFood g nh → ∃ g1, g.tick draws = .ok g1) := by
  obtain ⟨ini, h, hs⟩ := exists_concat_of_ne_nil hne
  obtain ⟨body, s1, hm, hn, _, _⟩ := tick_concat g ini h hp hs []
  refine ⟨s1, stepFrom h.x h.y g.snake.d, hm, getLast?_of_concat hn, ?_, ?_⟩
  · intro draws g1 ht
    obtain ⟨body2, s2, hm2, hn2, _, _, _, _, _, hst, _, _⟩ :=
      tick_playing_ok g g1 ini h draws hp hs ht
    have hs12 : s2 = s1 := by
      rw [hm] at hm2
      cases hm2
      rfl
    subst hs12
    rw [hn2, List.dropLast_concat]
    by_cases hc : hitsBody (stepFrom h.x h.y g.snake.d) body2 ∨
        onBorder g (stepFrom h.x h.y g.snake.d)
    · rw [if_pos hc] at hst
      exact ⟨⟨fun _ => hc, fun _ => hst⟩, fun hnc => absurd hc hnc, fun _ => hst⟩
    · rw [if_neg hc] at hst
      refine ⟨⟨fun hgo => ?_, fun hyes => absurd hyes hc⟩, fun _ => hst, fun hx => ?_⟩
      · rw [hst] at hgo
        exact absurd hgo (by decide)
      · exact absurd (Or.inr (Or.inl hx)) hc
  · intro draws hf
    exact tick_playing_total g ini h draws hp hs hf

theorem tick_game_over_iff_witness :
    ∃ s1 nh,
      snake.move { nodes := [⟨1, 5, -2⟩], d := -2, potential := 0 } = .ok s1 ∧
      s1.nodes.getLast? = some nh ∧
      (∀ draws g1,
        game.tick { snake := { nodes := [⟨1, 5, -2⟩], d := -2, potential := 0 },
                    state := 1, food := ⟨3, 3⟩, score := 0, width := 20, height := 10 }
          draws = .ok g1 →
        (g1.state = gameOver ↔ hitsBody nh s1.nodes.dropLast ∨
          onBorder { snake := { nodes := [⟨1, 5, -2⟩], d := -2, potential := 0 },
                     state := 1, food := ⟨3, 3⟩, score := 0, width := 20, height := 10 } nh) ∧
        (¬ (hitsBody nh s1.nodes.dropLast ∨
          onBorder { snake := { nodes := [⟨1, 5, -2⟩], d := -2, potential := 0 },
                     state := 1, food := ⟨3, 3⟩, score := 0, width := 20, height := 10 } nh) →
          g1.state = playing) ∧
        (nh.x = 0 → g1.state = gameOver)) ∧
      (∀ draws,
        ¬ onFood { snake := { nodes := [⟨1, 5, -2⟩], d := -2, potential := 0 },
                   state := 1, food := ⟨3, 3⟩, score := 0, width := 20, height := 10 } nh →
        ∃ g1,
          game.tick { snake := { nodes := [⟨1, 5, -2⟩], d := -2, potential := 0 },
                      state := 1, food := ⟨3, 3⟩, score := 0, width := 20, height := 10 }
            draws = .ok g1) :=
  tick_game_over_iff
    { snake := { nodes := [⟨1, 5, -2⟩], d := -2, potential := 0 },
      state := 1, food := ⟨3, 3⟩, score := 0, width := 20, height := 10 }
    (by decide) (by decide)

/-- C3: on a board with `width >= 3` and `height >= 3`, for a playing game whose
post-move head is on the food, every returning `tick` leaves pending growth 10
and the score one higher (in the arithmetic of `int`), keeps the moved
segments, and puts the food on a cell of the interior that no segment of the
snake, the new head included, is on. -/
theorem tick_eat (g : game) (s1 : snake) (nh : node) (draws : List (Nat × Nat)) (g1 : game)
    (hp : g.state = playing) (hw : 3 ≤ g.width) (hh : 3 ≤ g.height)
    (hm : g.snake.move = .ok s1) (hl : s1.nodes.getLast? = some nh) (hf : onFood g nh)
    (ht : g.tick draws = .ok g1) :
    g1.snake.potential = 10 ∧ g1.score = wrap64 (g.score + 1) ∧
      g1.snake.nodes = s1.nodes ∧
      (∀ n ∈ g1.snake.nodes, ¬ (n.x = g1.food.x ∧ n.y = g1.food.y)) ∧
      1 ≤ g1.food.x ∧ g1.food.x ≤ g.width - 2 ∧ 1 ≤ g1.food.y ∧ g1.food.y ≤ g.height - 2 := by
  have hne : g.snake.nodes ≠ [] := by
    intro hnil
    simp [snake.move, hnil] at hm
  obtain ⟨ini, h, hs⟩ := exists_concat_of_ne_nil hne
  obtain ⟨body2, s2, hm2, hn2, _, hnodes, _, _, _, _, hfood, _⟩ :=
    tick_playing_ok g g1 ini h draws hp hs ht
  have hs12 : s2 = s1 := by
    rw [hm] at hm2
    cases hm2
    rfl
  subst hs12
  have hnh : nh = stepFrom h.x h.y g.snake.d := by
    rw [hn2, List.getLast?_concat] at hl
    cases hl
    rfl
  subst hnh
  obtain ⟨hpot, hscore, hfree⟩ := hfood hf
  obtain ⟨hx1, hx2, hy1, hy2, hoff⟩ := freeSpot_interior hw hh hfree
  rw [← hnodes] at hoff
  exact ⟨hpot, hscore, hnodes, hoff, hx1, hx2, hy1, hy2⟩

theorem tick_eat_witness :
    (10 : Int) = 10 ∧ (1 : Int) = wrap64 (0 + 1) ∧
      [(⟨5, 5, 2⟩ : node), ⟨6, 5, 2⟩] = [⟨5, 5, 2⟩, ⟨6, 5, 2⟩] ∧
      (∀ n ∈ [(⟨5, 5, 2⟩ : node), ⟨6, 5, 2⟩], ¬ (n.x = 7 ∧ n.y = 4)) ∧
      1 ≤ (7 : Int) ∧ (7 : Int) ≤ 20 - 2 ∧ 1 ≤ (4 : Int) ∧ (4 : Int) ≤ 10 - 2 :=
  tick_eat
    { snake := { nodes := [⟨5, 5, 2⟩], d := 2, potential := 5 },
      state := 1, food := ⟨6, 5⟩, score := 0, width := 20, height := 10 }
    { nodes := [⟨5, 5, 2⟩, ⟨6, 5, 2⟩], d := 2, potential := 4 }
    ⟨6, 5, 2⟩ [(4, 4), (6, 3)]
    { snake := { nodes := [⟨5, 5, 2⟩, ⟨6, 5, 2⟩], d := 2, potential := 10 },
      state := 1, food := ⟨7, 4⟩, score := 1, width := 20, height := 10 }
    (by decide) (by decide) (by decide) (by decide) (by decide) (by decide) (by decide)

/-- C8: on a game whose state is not `playing`, `tick` returns the game as it is
(snake, food, score, state, width and height); so does any number of ticks. -/
theorem tick_not_playing (g : game) (hs : g.state ≠ playing) :
    (∀ draws, g.tick draws = .ok g) ∧ (∀ dss, g.ticks dss = .ok g) := by
  have h1 : ∀ draws, g.tick draws = .ok g := by
    intro draws
    simp [game.tick, hs]
  refine ⟨h1, ?_⟩
  intro dss
  induction dss with
  | nil => rfl
  | cons draws rest ih =>
    unfold game.ticks
    rw [h1 draws]
    exact ih

theorem tick_not_playing_witness :
    (∀ draws,
      game.tick { snake := { nodes := [⟨0, 5, -2⟩], d := -2, potential := 0 },
                  state := 2, food := ⟨3, 3⟩, score := 4, width := 20, height := 10 } draws =
        .ok { snake := { nodes := [⟨0, 5, -2⟩], d := -2, potential := 0 },
              state := 2, food := ⟨3, 3⟩, score := 4, width := 20, height := 10 }) ∧
    (∀ dss,
      game.ticks { snake := { nodes := [⟨0, 5, -2⟩], d := -2, potential := 0 },
                   state := 2, food := ⟨3, 3⟩, score := 4, width := 20, height := 10 } dss =
        .ok { snake := { nodes := [⟨0, 5, -2⟩], d := -2, potential := 0 },
              state := 2, food := ⟨3, 3⟩, score := 4, width := 20, height := 10 }) :=
  tick_not_playing
    { snake := { nodes := [⟨0, 5, -2⟩], d := -2, potential := 0 },
      state := 2, food := ⟨3, 3⟩, score := 4, width := 20, height := 10 }
    (by decide)

/-- C9: in state `gameOver` a Space key event makes `loop` continue with a game
whose state is `playing`, whose score is 0 and whose snake is one segment at
`(5, 5)` with recorded and intended direction `right`; food, width and height
are the ones before. -/
theorem restart_spec (g : game) (hs : g.state = gameOver) :
    ∃ g1, g.loopStep (.event .KeySpace) = .ok (some g1) ∧
      g1.state = playing ∧ g1.score = 0 ∧
      g1.snake.nodes = [⟨5, 5, right⟩] ∧ g1.snake.d = right ∧
      g1.food = g.food ∧ g1.width = g.width ∧ g1.height = g.height := by
  have hnp : ¬ gameOver = playing := by decide
  refine ⟨{ g with
      snake := { nodes := [⟨5, 5, right⟩], d := right, potential := 5 }
      score := 0
      state := playing }, ?_, rfl, rfl, rfl, rfl, rfl, rfl, rfl⟩
  unfold game.loopStep
  rw [hs, if_neg hnp, if_pos rfl]
  simp only [newSnake_one_right, Outcome.bind]

theorem restart_spec_witness :
    ∃ g1,
      game.loopStep
        { snake := { nodes := [⟨3, 5, -2⟩, ⟨2, 5, -2⟩, ⟨1, 5, -2⟩, ⟨0, 5, -2⟩], d := -2, potential := 3 },
          state := gameOver, food := ⟨3, 3⟩, score := 4, width := 20, height := 10 }
        (.event .KeySpace) = .ok (some g1) ∧
      g1.state = playing ∧ g1.score = 0 ∧
      g1.snake.nodes = [⟨5, 5, right⟩] ∧ g1.snake.d = right ∧
      g1.food = ⟨3, 3⟩ ∧ g1.width = 20 ∧ g1.height = 10 :=
  restart_spec
    { snake := { nodes := [⟨3, 5, -2⟩, ⟨2, 5, -2⟩, ⟨1, 5, -2⟩, ⟨0, 5, -2⟩], d := -2, potential := 3 },
      state := gameOver, food := ⟨3, 3⟩, score := 4, width := 20, height := 10 }
    rfl

/-- C10, as the claim states it, fails: the fresh snake carries pending growth 5, so
three ticks on the 20x10 board with the food at `(1, 1)` leave a snake of four
segments, not one. -/
theorem three_ticks_length_counterexample :
    ∃ g3,
      game.ticks
        { snake := { nodes := [⟨5, 5, right⟩], d := right, potential := 5 },
          state := playing, food := ⟨1, 1⟩, score := 0, width := 20, height := 10 }
        [[], [], []] = .ok g3 ∧
      newSnake 1 right = .ok { nodes := [⟨5, 5, right⟩], d := right, potential := 5 } ∧
      g3.snake.nodes.length = 4 ∧ g3.snake.nodes.length ≠ 1 :=
  ⟨{ snake := { nodes := [⟨5, 5, right⟩, ⟨6, 5, right⟩, ⟨7, 5, right⟩, ⟨8, 5, right⟩],
                d := right, potential := 2 },
     state := playing, food := ⟨1, 1⟩, score := 0, width := 20, height := 10 },
   by decide, by decide, by decide, by decide⟩

/-- C10, amended: on a 20x10 board, a playing game with the snake `newSnake(1, right)`,
score 0 and food on none of `(6, 5)`, `(7, 5)`, `(8, 5)`: three ticks return,
whatever the draws, with the head at `(8, 5)`, four segments
`(5,5) (6,5) (7,5) (8,5)`, pending growth 2, score 0, the food where it was and
state `playing`. -/
theorem three_ticks (f : food) (d1 d2 d3 : List (Nat × Nat))
    (h6 : ¬ (f.x = 6 ∧ f.y = 5)) (h7 : ¬ (f.x = 7 ∧ f.y = 5)) (h8 : ¬ (f.x = 8 ∧ f.y = 5)) :
    ∃ s g3, newSnake 1 right = .ok s ∧
      game.ticks { snake := s, state := playing, food := f, score := 0, width := 20,
                   height := 10 } [d1, d2, d3] = .ok g3 ∧
      g3.snake.nodes.getLast? = some ⟨8, 5, right⟩ ∧
      g3.snake.nodes = [⟨5, 5, right⟩, ⟨6, 5, right⟩, ⟨7, 5, right⟩, ⟨8, 5, right⟩] ∧
      g3.snake.nodes.length = 4 ∧ g3.snake.potential = 2 ∧
      g3.score = 0 ∧ g3.food = f ∧ g3.state = playing := by
  have t1 := tick_right_grow [] 5 5 0 f d1 (by omega) (by omega) h6 (by simp)
  have t2 := tick_right_grow [⟨5, 5, right⟩] 6 4 0 f d2 (by omega) (by omega) h7 (by simp)
  have t3 := tick_right_grow [⟨5, 5, right⟩, ⟨6, 5, right⟩] 7 3 0 f d3 (by omega) (by omega) h8
    (by simp)
  refine ⟨_, { snake := { nodes := [⟨5, 5, right⟩, ⟨6, 5, right⟩, ⟨7, 5, right⟩, ⟨8, 5, right⟩],
                          d := right, potential := 2 },
               state := playing, food := f, score := 0, width := 20, height := 10 },
    newSnake_one_right, ?_, ?_, rfl, rfl, rfl, rfl, rfl, rfl⟩
  · simp only [game.ticks, Outcome.bind]
    simp only [List.nil_append] at t1
    rw [t1]
    simp only
    have e2 : ([⟨5, 5, right⟩] : List node) ++ [⟨5 + 1, 5, right⟩] =
        [⟨5, 5, right⟩] ++ [⟨6, 5, right⟩] := by decide
    rw [e2, show (5 : Int) - 1 = 4 by decide, t2]
    simp only
    have e3 : ([⟨5, 5, right⟩] : List node) ++ [⟨6, 5, right⟩] ++ [⟨6 + 1, 5, right⟩] =
        [⟨5, 5, right⟩, ⟨6, 5, right⟩] ++ [⟨7, 5, right⟩] := by decide
    rw [e3, show (4 : Int) - 1 = 3 by decide, t3]
    simp only
    rfl
  · rfl

theorem three_ticks_witness :
    ∃ s g3, newSnake 1 right = .ok s ∧
      game.ticks { snake := s, state := playing, food := ⟨9, 5⟩, score := 0, width := 20,
                   height := 10 } [[], [(1, 1)], []] = .ok g3 ∧
      g3.snake.nodes.getLast? = some ⟨8, 5, right⟩ ∧
      g3.snake.nodes = [⟨5, 5, right⟩, ⟨6, 5, right⟩, ⟨7, 5, right⟩, ⟨8, 5, right⟩] ∧
      g3.snake.nodes.length = 4 ∧ g3.snake.potential = 2 ∧
      g3.score = 0 ∧ g3.food = ⟨9, 5⟩ ∧ g3.state = playing :=
  three_ticks ⟨9, 5⟩ [] [(1, 1)] [] (by decide) (by decide) (by decide)

/-! ## Invariants of the snake and of runs -/

/-- C11: `newSnake(1, right)` has exactly one segment; `move` (growing or
recycling) and `redirect` turn a snake with at least one segment into a snake
with at least one segment; and in every state reached from a game with the new
snake by ticks, redirects and iterations of `loop` (restarts included) `head()`
and `tail()` return, the head being the last element of the slice. -/
theorem snake_never_empty (g0 : game) (ops : List Op) (g : game)
    (hs : newSnake 1 right = .ok g0.snake) (hr : g0.ops ops = .ok g) :
    g0.snake.nodes.length = 1 ∧
      (∀ s : snake, s.nodes ≠ [] →
        (∃ s1, s.move = .ok s1 ∧ s1.nodes ≠ []) ∧
        (∀ d, ∃ s1, s.redirect d = .ok s1 ∧ s1.nodes ≠ [])) ∧
      g.snake.nodes ≠ [] ∧
      (∃ h t, g.snake.head = .ok h ∧ g.snake.tail = .ok t ∧ g.snake.nodes = t ++ [h]) := by
  have h0 : g0.snake = { nodes := [⟨5, 5, right⟩], d := right, potential := 5 } := by
    rw [newSnake_one_right] at hs
    exact (Outcome.ok.inj hs).symm
  have hne0 : g0.snake.nodes ≠ [] := by
    rw [h0]
    simp
  have hne : g.snake.nodes ≠ [] := ops_ne_nil ops g0 g hne0 hr
  refine ⟨by rw [h0]; rfl, ?_, hne, head_tail_of_ne_nil g.snake hne⟩
  intro s hsne
  refine ⟨move_ne_nil s hsne, fun d => ?_⟩
  obtain ⟨s1, h1, h2, _⟩ := redirect_ne_nil s d hsne
  exact ⟨s1, h1, by rw [h2]; exact hsne⟩

theorem snake_never_empty_witness :
    [(⟨5, 5, right⟩ : node)].length = 1 ∧
      (∀ s : snake, s.nodes ≠ [] →
        (∃ s1, s.move = .ok s1 ∧ s1.nodes ≠ []) ∧
        (∀ d, ∃ s1, s.redirect d = .ok s1 ∧ s1.nodes ≠ [])) ∧
      [(⟨5, 5, right⟩ : node), ⟨6, 5, up⟩, ⟨6, 4, up⟩] ≠ [] ∧
      (∃ h t,
        snake.head { nodes := [⟨5, 5, right⟩, ⟨6, 5, up⟩, ⟨6, 4, up⟩], d := up, potential := 3 } =
          .ok h ∧
        snake.tail { nodes := [⟨5, 5, right⟩, ⟨6, 5, up⟩, ⟨6, 4, up⟩], d := up, potential := 3 } =
          .ok t ∧
        [(⟨5, 5, right⟩ : node), ⟨6, 5, up⟩, ⟨6, 4, up⟩] = t ++ [h]) :=
  snake_never_empty
    { snake := { nodes := [⟨5, 5, right⟩], d := right, potential := 5 },
      state := playing, food := ⟨1, 1⟩, score := 0, width := 20, height := 10 }
    [.call (.tick []), .loop (.event .KeyArrowUp), .loop (.ticker [])]
    { snake := { nodes := [⟨5, 5, right⟩, ⟨6, 5, up⟩, ⟨6, 4, up⟩], d := up, potential := 3 },
      state := playing, food := ⟨1, 1⟩, score := 0, width := 20, height := 10 }
    (by decide) (by decide)

/-- C13, as the claim states it, fails: on a board of width 2 the tick that moves
the head onto the food calls `rand.Intn(0)`, which panics. -/
theorem tick_panics_counterexample :
    ({ nodes := [⟨5, 5, right⟩], d := right, potential := 0 } : snake).nodes ≠ [] ∧
      game.tick
        { snake := { nodes := [⟨5, 5, right⟩], d := right, potential := 0 },
          state := playing, food := ⟨6, 5⟩, score := 0, width := 2, height := 10 }
        [(0, 0)] = .panic ∧
      wrap64 (2 - 2) = 0 := by
  decide

/-- C13, amended: for every game whose snake has at least one segment and whose
width and height are `int` values of at least 3 (any food and score), `tick`
reaches no runtime error: `move` returns and `head` and `tail` return on its
result, the bounds `width-2` and `height-2` of the random draws are positive,
and no sequence of draws makes `tick` panic. -/
theorem tick_no_panic (g : game) (hne : g.snake.nodes ≠ [])
    (hw : 3 ≤ g.width) (hwi : isInt64 g.width) (hh : 3 ≤ g.height) (hhi : isInt64 g.height) :
    (∃ s1 h t, g.snake.move = .ok s1 ∧ s1.head = .ok h ∧ s1.tail = .ok t) ∧
      0 < wrap64 (g.width - 2) ∧ 0 < wrap64 (g.height - 2) ∧
      ∀ draws, g.tick draws ≠ .panic := by
  have hx : 0 < wrap64 (g.width - 2) := by
    unfold isInt64 at hwi
    unfold wrap64
    omega
  have hy : 0 < wrap64 (g.height - 2) := by
    unfold isInt64 at hhi
    unfold wrap64
    omega
  obtain ⟨s1, hm, hne1⟩ := move_ne_nil g.snake hne
  obtain ⟨h, t, h1, h2, _⟩ := head_tail_of_ne_nil s1 hne1
  exact ⟨⟨s1, h, t, hm, h1, h2⟩, hx, hy, fun draws => tick_ne_panic g draws hne hx hy⟩

theorem tick_no_panic_witness :
    (∃ s1 h t,
      snake.move { nodes := [⟨5, 5, right⟩], d := right, potential := 0 } = .ok s1 ∧
      s1.head = .ok h ∧ s1.tail = .ok t) ∧
      0 < wrap64 (3 - 2) ∧ 0 < wrap64 (10 - 2) ∧
      ∀ draws,
        game.tick
          { snake := { nodes := [⟨5, 5, right⟩], d := right, potential := 0 },
            state := playing, food := ⟨6, 5⟩, score := 0, width := 3, height := 10 }
          draws ≠ .panic :=
  tick_no_panic
    { snake := { nodes := [⟨5, 5, right⟩], d := right, potential := 0 },
      state := playing, food := ⟨6, 5⟩, score := 0, width := 3, height := 10 }
    (by decide) (by decide) (by decide) (by decide) (by decide)

/-- C15: for a snake with at least one segment `move` returns, and the tail-to-head
sequence of cells afterwards is the one the straightforward move gives: the old
sequence, without its first cell when no growth was pending, followed by the
cell one step from the old head in the intended direction. -/
theorem move_refines_spec (s : snake) (h : node) (hh : s.nodes.getLast? = some h) :
    ∃ s1, s.move = .ok s1 ∧
      s1.nodes.map coord = specMove (s.nodes.map coord) (coord h) s.d s.potential ∧
      (0 < s.potential →
        s1.nodes.map coord = s.nodes.map coord ++ [specStep (coord h) s.d]) ∧
      (s.potential = 0 →
        s1.nodes.map coord = (s.nodes.map coord).drop 1 ++ [specStep (coord h) s.d]) := by
  obtain ⟨ini, hs⟩ := List.getLast?_eq_some_iff.mp hh
  have hcells : (ini ++ [{ h with d := s.d }]).map coord = s.nodes.map coord := by
    rw [hs]
    simp [coord]
  have hpos : 0 < s.potential →
      ((ini ++ [{ h with d := s.d }]) ++ [stepFrom h.x h.y s.d]).map coord =
        s.nodes.map coord ++ [specStep (coord h) s.d] := by
    intro _
    rw [List.map_append, hcells, List.map_singleton, coord_stepFrom]
    rfl
  have hzero : ¬ s.potential > 0 →
      ((ini ++ [{ h with d := s.d }]).drop 1 ++ [stepFrom h.x h.y s.d]).map coord =
        (s.nodes.map coord).drop 1 ++ [specStep (coord h) s.d] := by
    intro _
    rw [List.map_append, List.map_drop, hcells, List.map_singleton, coord_stepFrom]
    rfl
  refine ⟨_, move_concat s ini h hs, ?_, ?_, ?_⟩
  · unfold specMove
    by_cases hp : s.potential > 0
    · rw [if_pos hp, if_pos hp]
      exact hpos hp
    · rw [if_neg hp, if_neg hp]
      exact hzero hp
  · intro hp
    rw [if_pos hp]
    exact hpos hp
  · intro hp
    have hnp : ¬ s.potential > 0 := by omega
    rw [if_neg hnp]
    exact hzero hnp

theorem move_refines_spec_witness :
    ∃ s1,
      snake.move { nodes := [⟨5, 5, right⟩, ⟨6, 5, up⟩, ⟨6, 4, up⟩], d := left, potential := 0 } =
        .ok s1 ∧
      s1.nodes.map coord =
        specMove ([⟨5, 5, right⟩, ⟨6, 5, up⟩, ⟨6, 4, up⟩].map coord)
          (coord ⟨6, 4, up⟩) left 0 ∧
      ((0 : Int) < 0 →
        s1.nodes.map coord =
          [⟨5, 5, right⟩, ⟨6, 5, up⟩, ⟨6, 4, up⟩].map coord ++
            [specStep (coord ⟨6, 4, up⟩) left]) ∧
      ((0 : Int) = 0 →
        s1.nodes.map coord =
          ([⟨5, 5, right⟩, ⟨6, 5, up⟩, ⟨6, 4, up⟩].map coord).drop 1 ++
            [specStep (coord ⟨6, 4, up⟩) left]) :=
  move_refines_spec
    { nodes := [⟨5, 5, right⟩, ⟨6, 5, up⟩, ⟨6, 4, up⟩], d := left, potential := 0 }
    ⟨6, 4, up⟩ (by decide)

/-- C16: on a board with `width >= 3` and `height >= 3` whose interior cells are all
cells of nodes of the list, `freeSpot` never returns: every attempt is rejected
and the function calls itself with the remaining draws, so no sequence of draws
gives a result; with `int` dimensions it does not panic either and is still
running after any number of attempts. -/
theorem freeSpot_never_returns (width height : Int) (nodes : List node)
    (hw : 3 ≤ width) (hh : 3 ≤ height) (hc : coversInterior width height nodes) :
    (∀ p rest, freeSpot width height nodes (p :: rest) = freeSpot width height nodes rest) ∧
      (∀ draws xy, freeSpot width height nodes draws ≠ .ok xy) ∧
      (isInt64 width → isInt64 height →
        ∀ draws, freeSpot width height nodes draws = .pending) := by
  have hretry := fun p rest => @freeSpot_retry width height nodes p rest hw hh hc
  refine ⟨hretry, ?_, ?_⟩
  · intro draws xy
    induction draws with
    | nil =>
      unfold freeSpot
      split <;> exact fun hbad => by cases hbad
    | cons p rest ih =>
      rw [hretry p rest]
      exact ih
  · intro hwi hhi draws
    have hx : ¬ (wrap64 (width - 2) ≤ 0 ∨ wrap64 (height - 2) ≤ 0) := by
      unfold isInt64 at hwi hhi
      unfold wrap64
      omega
    induction draws with
    | nil =>
      unfold freeSpot
      rw [if_neg hx]
    | cons p rest ih =>
      rw [hretry p rest]
      exact ih

theorem freeSpot_never_returns_witness :
    (∀ p rest, freeSpot 3 3 [⟨1, 1, right⟩] (p :: rest) = freeSpot 3 3 [⟨1, 1, right⟩] rest) ∧
      (∀ draws xy, freeSpot 3 3 [⟨1, 1, right⟩] draws ≠ .ok xy) ∧
      (isInt64 3 → isInt64 3 → ∀ draws, freeSpot 3 3 [⟨1, 1, right⟩] draws = .pending) :=
  freeSpot_never_returns 3 3 [⟨1, 1, right⟩] (by decide) (by decide)
    (fun x y hx1 hx2 hy1 hy2 =>
      ⟨⟨1, 1, right⟩, by simp, by simp only; omega, by simp only; omega⟩)

/-- C12, as the claim states it, fails: `g.score++` wraps, so a playing game whose
score is the largest `int` and whose head moves onto the food ends the tick
with the smallest `int` as its score, which is negative and below the old
score. -/
theorem score_overflow_counterexample :
    (0 : Int) ≤ 9223372036854775807 ∧
      game.tick
        { snake := { nodes := [⟨5, 5, right⟩], d := right, potential := 5 },
          state := playing, food := ⟨6, 5⟩, score := 9223372036854775807,
          width := 20, height := 10 }
        [(0, 0)] =
      .ok { snake := { nodes := [⟨5, 5, right⟩, ⟨6, 5, right⟩], d := right, potential := 10 },
            state := playing, food := ⟨1, 1⟩, score := -9223372036854775808,
            width := 20, height := 10 } ∧
      (-9223372036854775808 : Int) < 0 ∧
      (-9223372036854775808 : Int) < 9223372036854775807 := by
  decide

/-- C12, amended: for every game whose score is at least 0 and below the largest
`int`, after a returning `tick` the score is still at least 0 and not below the
old score; it is unchanged or exactly one greater, and one greater exactly when
the state before the tick was `playing` and the post-move head is on the food;
a `redirect` call leaves the score as it is. -/
theorem score_monotone (g : game) (draws : List (Nat × Nat)) (g1 : game)
    (h0 : 0 ≤ g.score) (hmax : g.score < 9223372036854775807)
    (ht : g.tick draws = .ok g1) :
    0 ≤ g1.score ∧ g.score ≤ g1.score ∧
      (g1.score = g.score ∨ g1.score = g.score + 1) ∧
      (g1.score = g.score + 1 ↔
        g.state = playing ∧
          ∃ s1 nh, g.snake.move = .ok s1 ∧ s1.nodes.getLast? = some nh ∧ onFood g nh) ∧
      (∀ d g2, g.act (.redirect d) = .ok g2 → g2.score = g.score) := by
  have hred : ∀ d g2, g.act (.redirect d) = .ok g2 → g2.score = g.score :=
    fun d g2 h => (act_redirect_frame g g2 d h).2.2.1
  by_cases hp : g.state = playing
  · have hne := nodes_ne_nil_of_tick g g1 draws hp ht
    obtain ⟨ini, h, hs⟩ := exists_concat_of_ne_nil hne
    obtain ⟨body, s1, hm, hn, _, _, _, _, _, _, hfood, hnofood⟩ :=
      tick_playing_ok g g1 ini h draws hp hs ht
    have hlast : s1.nodes.getLast? = some (stepFrom h.x h.y g.snake.d) :=
      getLast?_of_concat hn
    by_cases hf : onFood g (stepFrom h.x h.y g.snake.d)
    · obtain ⟨_, hscore, _⟩ := hfood hf
      have hw : wrap64 (g.score + 1) = g.score + 1 :=
        wrap64_of_isInt64 (by unfold isInt64; omega)
      rw [hw] at hscore
      refine ⟨by omega, by omega, Or.inr hscore, ?_, hred⟩
      exact ⟨fun _ => ⟨hp, s1, _, hm, hlast, hf⟩, fun _ => hscore⟩
    · obtain ⟨_, hscore, _⟩ := hnofood hf
      refine ⟨by omega, by omega, Or.inl hscore, ?_, hred⟩
      constructor
      · intro hbad
        omega
      · rintro ⟨_, s2, nh, hm2, hl2, hf2⟩
        rw [hm] at hm2
        cases hm2
        rw [hlast] at hl2
        cases hl2
        exact absurd hf2 hf
  · have : g.tick draws = .ok g := by simp [game.tick, hp]
    rw [this] at ht
    cases ht
    refine ⟨h0, le_refl _, Or.inl rfl, ?_, hred⟩
    constructor
    · intro hbad
      omega
    · rintro ⟨hplay, _⟩
      exact absurd hplay hp

theorem score_monotone_witness :
    (0 : Int) ≤ 4 ∧ (3 : Int) ≤ 4 ∧ ((4 : Int) = 3 ∨ (4 : Int) = 3 + 1) ∧
      ((4 : Int) = 3 + 1 ↔
        playing = playing ∧
          ∃ s1 nh,
            snake.move { nodes := [⟨5, 5, right⟩], d := right, potential := 5 } = .ok s1 ∧
            s1.nodes.getLast? = some nh ∧
            onFood
              { snake := { nodes := [⟨5, 5, right⟩], d := right, potential := 5 },
                state := playing, food := ⟨6, 5⟩, score := 3, width := 20, height := 10 }
              nh) ∧
      (∀ d g2,
        game.act
          { snake := { nodes := [⟨5, 5, right⟩], d := right, potential := 5 },
            state := playing, food := ⟨6, 5⟩, score := 3, width := 20, height := 10 }
          (.redirect d) = .ok g2 →
        g2.score = 3) :=
  score_monotone
    { snake := { nodes := [⟨5, 5, right⟩], d := right, potential := 5 },
      state := playing, food := ⟨6, 5⟩, score := 3, width := 20, height := 10 }
    [(0, 0)]
    { snake := { nodes := [⟨5, 5, right⟩, ⟨6, 5, right⟩], d := right, potential := 10 },
      state := playing, food := ⟨1, 1⟩, score := 4, width := 20, height := 10 }
    (by decide) (by decide) (by decide)

/-- C17: on a board with `width >= 3` and `height >= 3`, for a playing game whose
food is on no segment's cell, after every returning `tick` the food is on no
segment's cell: either food and score are the ones before, or the food was
eaten, the score went up and the food is on a cell of the interior. -/
theorem food_stays_free (g : game) (draws : List (Nat × Nat)) (g1 : game)
    (hp : g.state = playing) (hw : 3 ≤ g.width) (hh : 3 ≤ g.height)
    (hfree : ∀ n ∈ g.snake.nodes, ¬ (n.x = g.food.x ∧ n.y = g.food.y))
    (ht : g.tick draws = .ok g1) :
    (∀ n ∈ g1.snake.nodes, ¬ (n.x = g1.food.x ∧ n.y = g1.food.y)) ∧
      ((g1.food = g.food ∧ g1.score = g.score) ∨
        (g1.score = wrap64 (g.score + 1) ∧
          1 ≤ g1.food.x ∧ g1.food.x ≤ g.width - 2 ∧
          1 ≤ g1.food.y ∧ g1.food.y ≤ g.height - 2)) := by
  have hne := nodes_ne_nil_of_tick g g1 draws hp ht
  obtain ⟨ini, h, hs⟩ := exists_concat_of_ne_nil hne
  obtain ⟨body, s1, _, hn, hb, hnodes, _, _, _, _, hfood, hnofood⟩ :=
    tick_playing_ok g g1 ini h draws hp hs ht
  by_cases hf : onFood g (stepFrom h.x h.y g.snake.d)
  · obtain ⟨_, hscore, hspot⟩ := hfood hf
    obtain ⟨hx1, hx2, hy1, hy2, hoff⟩ := freeSpot_interior hw hh hspot
    rw [← hnodes] at hoff
    exact ⟨hoff, Or.inr ⟨hscore, hx1, hx2, hy1, hy2⟩⟩
  · obtain ⟨_, hscore, hsame⟩ := hnofood hf
    refine ⟨?_, Or.inl ⟨hsame, hscore⟩⟩
    intro n hmem
    rw [hnodes, hn, List.mem_append, List.mem_singleton] at hmem
    rw [hsame]
    rcases hmem with hmem | hmem
    · rw [hb] at hmem
      obtain ⟨m, hm, hmx, hmy⟩ := body_coord_mem ini h g.snake.d g.snake.potential n hmem
      rw [← hs] at hm
      rw [← hmx, ← hmy]
      exact hfree m hm
    · rw [hmem]
      exact hf

theorem food_stays_free_witness :
    (∀ n ∈ [(⟨5, 5, right⟩ : node), ⟨6, 5, right⟩], ¬ (n.x = 1 ∧ n.y = 1)) ∧
      (((⟨1, 1⟩ : food) = ⟨6, 5⟩ ∧ (1 : Int) = 0) ∨
        ((1 : Int) = wrap64 (0 + 1) ∧
          1 ≤ (1 : Int) ∧ (1 : Int) ≤ 20 - 2 ∧ 1 ≤ (1 : Int) ∧ (1 : Int) ≤ 10 - 2)) :=
  food_stays_free
    { snake := { nodes := [⟨5, 5, right⟩], d := right, potential := 5 },
      state := playing, food := ⟨6, 5⟩, score := 0, width := 20, height := 10 }
    [(0, 0)]
    { snake := { nodes := [⟨5, 5, right⟩, ⟨6, 5, right⟩], d := right, potential := 10 },
      state := playing, food := ⟨1, 1⟩, score := 1, width := 20, height := 10 }
    (by decide) (by decide) (by decide) (by decide) (by decide)

/-- C18: on a board whose width and height are `int` values of at least 7, in every
state reached from a game with the snake `newSnake(1, right)` by ticks,
redirects and iterations of `loop` (restarts included), the board is the one at
the start and, if the state is `playing`, every segment lies strictly inside
the border ring: `0 < x < width-1` and `0 < y < height-1`. -/
theorem playing_inside_ring (g0 : game) (ops : List Op) (g : game)
    (hs : newSnake 1 right = .ok g0.snake)
    (hw : 7 ≤ g0.width) (hwi : isInt64 g0.width) (hh : 7 ≤ g0.height) (hhi : isInt64 g0.height)
    (hr : g0.ops ops = .ok g) (hp : g.state = playing) :
    g.width = g0.width ∧ g.height = g0.height ∧
      ∀ n ∈ g.snake.nodes, 0 < n.x ∧ n.x < g.width - 1 ∧ 0 < n.y ∧ n.y < g.height - 1 := by
  have h0 : g0.snake = { nodes := [⟨5, 5, right⟩], d := right, potential := 5 } := by
    rw [newSnake_one_right] at hs
    exact (Outcome.ok.inj hs).symm
  have hin0 : g0.state = playing → ∀ n ∈ g0.snake.nodes, insideRing g0 n := by
    intro _ n hmem
    rw [h0] at hmem
    simp only [List.mem_singleton] at hmem
    rw [hmem]
    unfold insideRing
    simp only
    omega
  obtain ⟨hwid, hhei, hin⟩ := ops_keep_inside ops g0 g hw hwi hh hhi hin0 hr
  exact ⟨hwid, hhei, fun n hmem => hin hp n hmem⟩

theorem playing_inside_ring_witness :
    (7 : Int) = 7 ∧ (7 : Int) = 7 ∧
      ∀ n ∈ [(⟨5, 5, up⟩ : node), ⟨5, 4, up⟩],
        0 < n.x ∧ n.x < (7 : Int) - 1 ∧ 0 < n.y ∧ n.y < (7 : Int) - 1 :=
  playing_inside_ring
    { snake := { nodes := [⟨5, 5, right⟩], d := right, potential := 5 },
      state := playing, food := ⟨1, 1⟩, score := 0, width := 7, height := 7 }
    [.loop (.event .KeyArrowUp), .loop (.ticker [])]
    { snake := { nodes := [⟨5, 5, up⟩, ⟨5, 4, up⟩], d := up, potential := 4 },
      state := playing, food := ⟨1, 1⟩, score := 0, width := 7, height := 7 }
    (by decide) (by decide) (by decide) (by decide) (by decide) (by decide) (by decide)

/-- C14, as the claim states it, fails in its last part: the snake with segments
`(5,5)` and `(4,5)` (head), both recording `right`, and intended direction
`right` has an intended direction that is not the opposite of its head's, yet
its move puts the new head on `(5,5)`, the cell of the segment directly behind
the old head. -/
theorem reversal_counterexample :
    noReversal { nodes := [⟨5, 5, right⟩, ⟨4, 5, right⟩], d := right, potential := 0 } ∧
      isDirection right ∧
      snake.move { nodes := [⟨5, 5, right⟩, ⟨4, 5, right⟩], d := right, potential := 0 } =
        .ok { nodes := [⟨4, 5, right⟩, ⟨5, 5, right⟩], d := right, potential := 0 } ∧
      [(⟨4, 5, right⟩ : node), ⟨5, 5, right⟩].getLast? = some ⟨5, 5, right⟩ ∧
      [(⟨5, 5, right⟩ : node), ⟨4, 5, right⟩].dropLast.getLast? = some ⟨5, 5, right⟩ ∧
      coord (⟨5, 5, right⟩ : node) = coord ⟨5, 5, right⟩ := by
  decide

/-- C14, amended: for every snake whose intended direction is not the opposite of
its head's recorded direction, every returning sequence of `redirect` and `move`
calls leaves a snake with that property; a move that follows a move, with any
redirects in between, never travels in the direction opposite to the earlier
one; and when the snake has at least two segments, its intended direction is
one of the four and its head lies one step in its recorded direction from the
segment directly behind it (as after every move), the new head does not land
on the cell of that segment. -/
theorem no_reversal (s : snake) (ops : List SnakeOp) (s1 : snake)
    (hc : noReversal s) (hr : s.ops ops = .ok s1) :
    noReversal s1 ∧
      (∀ (ds : List Int) s2 s3, s1.move = .ok s2 → s2.ops (ds.map SnakeOp.redirect) = .ok s3 →
        ¬ opposite s3.d s1.d) ∧
      (∀ pre b h s2 nh, s1.nodes = pre ++ [b, h] → isDirection s1.d →
        coord h = coord (stepFrom b.x b.y h.d) →
        s1.move = .ok s2 → s2.nodes.getLast? = some nh → coord nh ≠ coord b) := by
  have hc1 : noReversal s1 := ops_noReversal ops s s1 hc hr
  refine ⟨hc1, ?_, ?_⟩
  · intro ds s2 s3 hm hrs
    obtain ⟨hc2, _, nh, hl, hnd⟩ := move_noReversal s1 s2 hm
    have hc3 : noReversal s3 := ops_noReversal _ s2 s3 hc2 hrs
    have hn3 : s3.nodes = s2.nodes := redirects_nodes ds s2 s3 hc2 hrs
    unfold noReversal at hc3
    rw [hn3, hl] at hc3
    simp only [hnd] at hc3
    exact hc3
  · intro pre b h s2 nh hs hd hk hm hl
    have hs2 : s1.nodes = (pre ++ [b]) ++ [h] := by
      rw [hs]
      simp
    have hlast : s1.nodes.getLast? = some h := getLast?_of_concat hs2
    have hno : ¬ opposite s1.d h.d := by
      have := hc1
      unfold noReversal at this
      rw [hlast] at this
      exact this
    have hm2 := move_concat s1 (pre ++ [b]) h hs2
    rw [hm2] at hm
    have hnh : nh = stepFrom h.x h.y s1.d := by
      rw [← Outcome.ok.inj hm] at hl
      have hl2 : some (stepFrom h.x h.y s1.d) = some nh := by
        rw [← hl]
        split <;> exact (List.getLast?_concat _).symm
      exact (Option.some.inj hl2).symm
    rw [hnh]
    exact step_not_back b h s1.d hd hno hk

theorem no_reversal_witness :
    noReversal { nodes := [⟨5, 5, right⟩, ⟨6, 5, up⟩, ⟨6, 4, up⟩], d := up, potential := 3 } ∧
      (∀ (ds : List Int) s2 s3,
        snake.move { nodes := [⟨5, 5, right⟩, ⟨6, 5, up⟩, ⟨6, 4, up⟩], d := up, potential := 3 } =
          .ok s2 →
        s2.ops (ds.map SnakeOp.redirect) = .ok s3 → ¬ opposite s3.d up) ∧
      (∀ pre b h s2 nh,
        [(⟨5, 5, right⟩ : node), ⟨6, 5, up⟩, ⟨6, 4, up⟩] = pre ++ [b, h] → isDirection up →
        coord h = coord (stepFrom b.x b.y h.d) →
        snake.move { nodes := [⟨5, 5, right⟩, ⟨6, 5, up⟩, ⟨6, 4, up⟩], d := up, potential := 3 } =
          .ok s2 →
        s2.nodes.getLast? = some nh → coord nh ≠ coord b) :=
  no_reversal
    { nodes := [⟨5, 5, right⟩], d := right, potential := 5 }
    [.move, .redirect left, .redirect up, .move]
    { nodes := [⟨5, 5, right⟩, ⟨6, 5, up⟩, ⟨6, 4, up⟩], d := up, potential := 3 }
    (by decide) (by decide)

/-- C19: for a snake with at least one segment whose consecutive segments are one
grid step apart and whose intended direction is one of the four, `move`
returns a snake whose consecutive segments are one grid step apart, and the
segment directly behind the new head records the intended direction, the new
head being the step from it in that direction. -/
theorem move_contiguous (s : snake) (hne : s.nodes ≠ []) (hc : contiguous s.nodes)
    (hd : isDirection s.d) :
    ∃ s1, s.move = .ok s1 ∧ contiguous s1.nodes ∧
      ∀ pre b nh, s1.nodes = pre ++ [b, nh] →
        b.d = s.d ∧ nh = stepFrom b.x b.y b.d ∧ gridDist b nh = 1 := by
  obtain ⟨ini, h, hs⟩ := exists_concat_of_ne_nil hne
  obtain ⟨s1, hm, _, hor⟩ := move_nodes s ini h hs
  have hstep : gridDist { h with d := s.d } (stepFrom h.x h.y s.d) = 1 :=
    gridDist_step { h with d := s.d } s.d hd
  have hL : contiguous (ini ++ [{ h with d := s.d }, stepFrom h.x h.y s.d]) := by
    have e : ini ++ [{ h with d := s.d }, stepFrom h.x h.y s.d] =
        (ini ++ [{ h with d := s.d }]) ++ [stepFrom h.x h.y s.d] := by simp
    rw [e]
    unfold contiguous at hc ⊢
    rw [hs, List.chain'_append] at hc
    obtain ⟨h1, _, h3⟩ := hc
    rw [List.chain'_append, List.chain'_append]
    refine ⟨⟨h1, List.chain'_singleton _, ?_⟩, List.chain'_singleton _, ?_⟩
    · intro x hx y hy
      simp only [List.head?_cons, Option.mem_def, Option.some.injEq] at hy
      subst hy
      exact h3 x hx h (by simp)
    · intro x hx y hy
      simp only [List.getLast?_concat, List.head?_cons, Option.mem_def,
        Option.some.injEq] at hx hy
      subst hx
      subst hy
      exact hstep
  refine ⟨s1, hm, ?_, ?_⟩
  · rcases hor with hn | hn
    · rw [hn]
      exact hL
    · rw [hn]
      exact List.Chain'.drop hL 1
  · intro pre b nh hpre
    have hlast : { h with d := s.d } = b ∧ stepFrom h.x h.y s.d = nh := by
      rcases hor with hn | hn
      · rw [hn] at hpre
        exact last_two_eq hpre
      · rw [hn] at hpre
        exact last_two_of_drop hpre
    obtain ⟨hb, hnh⟩ := hlast
    subst hb
    subst hnh
    exact ⟨rfl, rfl, hstep⟩

theorem move_contiguous_witness :
    ∃ s1,
      snake.move { nodes := [⟨5, 5, right⟩, ⟨6, 5, up⟩, ⟨6, 4, up⟩], d := left, potential := 0 } =
        .ok s1 ∧
      contiguous s1.nodes ∧
      ∀ pre b nh, s1.nodes = pre ++ [b, nh] →
        b.d = left ∧ nh = stepFrom b.x b.y b.d ∧ gridDist b nh = 1 :=
  move_contiguous
    { nodes := [⟨5, 5, right⟩, ⟨6, 5, up⟩, ⟨6, 4, up⟩], d := left, potential := 0 }
    (by decide) (by simp [contiguous, gridDist, wrap64, up, right]) (by decide)

end Termsnake
